import Mathlib

/-!
Verification of the batch task-processing engine of PDF Toolkit Pro.

The engine lives in the single-file JavaScript source as the class
`BatchProcessor` together with the surrounding module-level counters
(`errorsCount`, `errorNotifications`, `processingStats`).  We embed the
engine shallowly:

* file-like work items become the record of metadata the engine actually
  inspects (`name`, `type`, `size`); payload bytes are never branched on
  and are abstracted away;
* the external collaborators (pdf-lib, pdf.js, Tesseract, `arrayBuffer`)
  are abstracted by an oracle giving, per file and operation, the result
  of the post-validation external phase of a handler;
* the cooperative async execution of a batch (lanes suspended at `await`)
  becomes a small-step transition relation on an explicit state; the
  drain loop, which `await`s each batch to completion before dequeuing
  the next, becomes sequential composition of complete batch runs;
* observable callback invocations (`onProgress`, `onError`,
  `onComplete`) and batch boundaries are recorded in a ghost event list.
-/

namespace PDFToolkit

deriving instance DecidableEq for Except

/-- A file-like work item: exactly the metadata the engine inspects
(JS `file.name`, `file.type`, `file.size` in bytes). -/
structure JsFile where
  name : String
  type : String
  size : Nat
deriving DecidableEq, Repr

/-- JS `String.prototype.toLowerCase`, on the character sequence.  (The
core `String.toLower` wrapper is not kernel-computable; mapping
`Char.toLower` over the characters is the same function on the ASCII
MIME/extension strings this code handles.) -/
def lowerStr (s : String) : String := ⟨s.data.map Char.toLower⟩

/-- JS `String.prototype.endsWith`, on the character sequence. -/
def endsWithStr (s suffix : String) : Bool := suffix.data.isSuffixOf s.data

/-- JS `String.prototype.split` with a one-character separator. -/
def splitChar (sep : Char) : List Char → List (List Char)
  | [] => [[]]
  | c :: cs =>
    if c = sep then [] :: splitChar sep cs
    else
      match splitChar sep cs with
      | [] => [[c]]
      | g :: gs => (c :: g) :: gs

/-- JS `type.split('/')[1]` as used by `validateFile`.  When the MIME
string has no `/`, index 1 is `undefined`, which `endsWith` coerces to
the string "undefined"; the `getD` default models that coercion. -/
def mimeSub (t : String) : String :=
  ⟨(splitChar '/' t.data).getD 1 "undefined".data⟩

/-- `BatchProcessor.validateFile(file, allowedTypes)`:
`allowedTypes.includes(file.type) || allowedTypes.some(type =>
file.name.toLowerCase().endsWith(type.split('/')[1]))`. -/
def validateFile (f : JsFile) (allowedTypes : List String) : Bool :=
  allowedTypes.contains f.type
    || allowedTypes.any (fun t => endsWithStr (lowerStr f.name) (mimeSub t))

/-- The per-file size ceiling used by `mergeFile`: 100MB. -/
def sizeLimit : Nat := 100 * 1024 * 1024

/-- External calls a handler can make after (or without) validating. -/
inductive ExtCall
  | pushMergeList
  | readPayload
  | loadPdf
  | runTransform (kind : String)
deriving DecidableEq, Repr

/-- Oracle for the external phase of a handler: given the file and the
operation kind, whether the delegated external work (payload read, pdf
load, compression, OCR, conversion) succeeds or throws with a message. -/
def Ext : Type := JsFile → String → Except String Unit

/-- Allow-list used by `mergeFile` and `compressFile`. -/
def pdfOnly : List String := ["application/pdf"]

/-- Allow-list used by `ocrFile` (`supportedTypes`). -/
def ocrTypes : List String :=
  ["application/pdf", "image/jpeg", "image/png", "image/bmp", "image/tiff"]

/-- Size-ceiling message of `mergeFile`.  The JS interpolates the size in
MB with one decimal; we keep the raw byte count in the message. -/
def mergeSizeMsg (size : Nat) : String :=
  "File too large: " ++ toString size ++ " bytes. Maximum 100MB per file."

/-- `BatchProcessor.mergeFile`: validates the type allow-list, then the
100MB ceiling, then only pushes onto the module-level merge list (an
operation that cannot fail).  Returns the external calls made and the
result of the handler. -/
def mergeFile (f : JsFile) : List ExtCall × Except String Unit :=
  if ¬ validateFile f pdfOnly then
    ([], .error "Invalid file type. Only PDF files are supported for merging.")
  else if sizeLimit < f.size then
    ([], .error (mergeSizeMsg f.size))
  else
    ([.pushMergeList], .ok ())

/-- `BatchProcessor.compressFile`: validates the type allow-list (no size
ceiling), then reads the payload, loads the PDF and compresses it — the
whole external phase is decided by the oracle. -/
def compressFile (ext : Ext) (f : JsFile) : List ExtCall × Except String Unit :=
  if ¬ validateFile f pdfOnly then
    ([], .error "Invalid file type. Only PDF files are supported for compression.")
  else
    match ext f "compress" with
    | .ok _ => ([.readPayload, .loadPdf, .runTransform "compress"], .ok ())
    | .error m => ([.readPayload], .error m)

/-- `BatchProcessor.ocrFile`: validates against `supportedTypes` (no size
ceiling), then performs OCR (which reads the payload internally). -/
def ocrFile (ext : Ext) (f : JsFile) : List ExtCall × Except String Unit :=
  if ¬ validateFile f ocrTypes then
    ([], .error "Unsupported file type for OCR.")
  else
    match ext f "ocr" with
    | .ok _ => ([.readPayload, .runTransform "ocr"], .ok ())
    | .error m => ([.readPayload], .error m)

/-- `BatchProcessor.convertFile`: performs no validation at all and
directly calls `convertToFormat` (which reads the payload). -/
def convertFile (ext : Ext) (f : JsFile) : List ExtCall × Except String Unit :=
  ([.runTransform "convert"], ext f "convert")

/-- `BatchProcessor.executeOperation`: string-keyed dispatch over the
operation kind; unknown kinds throw.  `options` only tunes the external
phase (compression quality, target format) and is absorbed into the
oracle. -/
def executeOperation (ext : Ext) (f : JsFile) (op : String) :
    List ExtCall × Except String Unit :=
  match op with
  | "merge" => mergeFile f
  | "compress" => compressFile ext f
  | "ocr" => ocrFile ext f
  | "convert" => convertFile ext f
  | _ => ([], .error ("Unknown operation: " ++ op))

/-- The outcome of one item, as observed by `processFileInBatch`. -/
def itemResult (ext : Ext) (f : JsFile) (op : String) : Except String Unit :=
  (executeOperation ext f op).2

/-- The validation gate of each handler, read off the source: which
inputs are rejected before any external call, and with which message.
`convert` and unknown kinds have no gate. -/
def validationGate (f : JsFile) (op : String) : Option String :=
  match op with
  | "merge" =>
      if ¬ validateFile f pdfOnly then
        some "Invalid file type. Only PDF files are supported for merging."
      else if sizeLimit < f.size then some (mergeSizeMsg f.size)
      else none
  | "compress" =>
      if ¬ validateFile f pdfOnly then
        some "Invalid file type. Only PDF files are supported for compression."
      else none
  | "ocr" =>
      if ¬ validateFile f ocrTypes then some "Unsupported file type for OCR."
      else none
  | _ => none

/-! ### Batching (`addFiles` splitting loop) -/

/-- Fuel-driven chunking mirroring the loop
`for (let i = 0; i < n; i += batchSize) slice(i, i + batchSize)`.
Fuel at least the list length suffices for any positive chunk size;
the fuel-0 fallback is unreachable then. -/
def chunkFilesAux (bs : Nat) : Nat → List JsFile → List (List JsFile)
  | _, [] => []
  | 0, fs => [fs]
  | fuel+1, fs => fs.take bs :: chunkFilesAux bs fuel (fs.drop bs)

/-- The batches-of-`bs` decomposition computed by `addFiles`. -/
def chunkFiles (bs : Nat) (files : List JsFile) : List (List JsFile) :=
  chunkFilesAux bs files.length files

/-- One queue entry built by `addFiles`: the slice of files, the
operation kind, `batchIndex = Math.floor(i / batchSize)` and
`totalBatches = Math.ceil(n / batchSize)`. -/
structure Batch where
  files : List JsFile
  op : String
  batchIndex : Nat
  totalBatches : Nat
deriving DecidableEq, Repr

/-- The list of batches `addFiles` appends to the queue for one
submission. -/
def mkBatches (files : List JsFile) (op : String) (bs : Nat) : List Batch :=
  (chunkFiles bs files).enum.map fun p =>
    { files := p.2, op := op, batchIndex := p.1,
      totalBatches := (files.length + bs - 1) / bs }

lemma chunkFilesAux_congr (bs : Nat) (hbs : 0 < bs) :
    ∀ fuel fuel' (fs : List JsFile), fs.length ≤ fuel → fs.length ≤ fuel' →
      chunkFilesAux bs fuel fs = chunkFilesAux bs fuel' fs := by
  intro fuel
  induction fuel with
  | zero =>
    intro fuel' fs h _
    have : fs = [] := List.length_eq_zero.mp (Nat.le_zero.mp h)
    subst this
    cases fuel' <;> rfl
  | succ fuel ih =>
    intro fuel' fs h h'
    cases fs with
    | nil => cases fuel' <;> rfl
    | cons f fs =>
      cases fuel' with
      | zero => exact absurd h' (by simp)
      | succ fuel' =>
        simp only [chunkFilesAux]
        congr 1
        apply ih
        · have := List.length_drop bs (f :: fs)
          have hlen : (f :: fs).length ≤ fuel + 1 := h
          have : ((f :: fs).drop bs).length = (f :: fs).length - bs := by
            simp [List.length_drop]
          omega
        · have : ((f :: fs).drop bs).length = (f :: fs).length - bs := by
            simp [List.length_drop]
          omega

/-- Unfolding law for `chunkFiles` at a cons cell (positive chunk size). -/
lemma chunkFiles_cons (bs : Nat) (hbs : 0 < bs) (f : JsFile) (fs : List JsFile) :
    chunkFiles bs (f :: fs) =
      (f :: fs).take bs :: chunkFiles bs ((f :: fs).drop bs) := by
  show chunkFilesAux bs (fs.length + 1) (f :: fs) = _
  simp only [chunkFilesAux]
  congr 1
  apply chunkFilesAux_congr bs hbs
  · have h1 : ((f :: fs).drop bs).length = (f :: fs).length - bs := by
      simp [List.length_drop]
    have h2 : (f :: fs).length = fs.length + 1 := rfl
    omega
  · exact le_rfl

@[simp] lemma chunkFiles_nil (bs : Nat) : chunkFiles bs [] = [] := rfl

/-! ### Lane stripes (`processFileInBatch` recursion) -/

/-- Fuel-driven stripe of indices `s, s+K, s+2K, …` below `N`, the index
set visited by the recursion `processFileInBatch(batch, fileIndex)` →
`processFileInBatch(batch, fileIndex + maxConcurrent)`. -/
def stripeFromAux (K N : Nat) : Nat → Nat → List Nat
  | 0, _ => []
  | fuel+1, s => if s < N then s :: stripeFromAux K N fuel (s + K) else []

/-- The stripe of indices a lane starting at `s` visits. -/
def stripeFrom (K N s : Nat) : List Nat := stripeFromAux K N (N - s) s

lemma stripeFromAux_congr (K N : Nat) (hK : 0 < K) :
    ∀ fuel fuel' s, N - s ≤ fuel → N - s ≤ fuel' →
      stripeFromAux K N fuel s = stripeFromAux K N fuel' s := by
  intro fuel
  induction fuel with
  | zero =>
    intro fuel' s h _
    have hs : N ≤ s := by omega
    cases fuel' with
    | zero => rfl
    | succ fuel' => simp [stripeFromAux, Nat.not_lt.mpr hs]
  | succ fuel ih =>
    intro fuel' s h h'
    cases fuel' with
    | zero =>
      have hs : N ≤ s := by omega
      simp [stripeFromAux, Nat.not_lt.mpr hs]
    | succ fuel' =>
      simp only [stripeFromAux]
      by_cases hs : s < N
      · simp only [hs, if_true]
        congr 1
        exact ih fuel' (s + K) (by omega) (by omega)
      · simp [hs]

/-- Unfolding law for `stripeFrom` (positive stride). -/
lemma stripeFrom_eq (K N s : Nat) (hK : 0 < K) :
    stripeFrom K N s = if s < N then s :: stripeFrom K N (s + K) else [] := by
  by_cases hs : s < N
  · have h1 : N - s = (N - s - 1) + 1 := by omega
    show stripeFromAux K N (N - s) s = _
    rw [h1]
    simp only [stripeFromAux, hs, if_true]
    congr 1
    exact stripeFromAux_congr K N hK _ _ _ (by omega) le_rfl
  · have h0 : N - s = 0 := by omega
    simp [stripeFrom, h0, stripeFromAux, hs]

/-- Indices at or past `N` have empty stripes. -/
lemma stripeFrom_of_le (K N s : Nat) (h : N ≤ s) : stripeFrom K N s = [] := by
  simp [stripeFrom, Nat.sub_eq_zero_of_le h, stripeFromAux]

/-- Each stripe is strictly ascending. -/
lemma stripeFrom_chain (K N : Nat) (hK : 0 < K) (s : Nat) :
    List.Chain' (· < ·) (stripeFrom K N s) := by
  have : ∀ fuel s, List.Chain' (· < ·) (stripeFromAux K N fuel s) := by
    intro fuel
    induction fuel with
    | zero => intro s; exact List.chain'_nil
    | succ fuel ih =>
      intro s
      simp only [stripeFromAux]
      by_cases hs : s < N
      · simp only [hs, if_true]
        refine List.chain'_cons'.mpr ⟨?_, ih (s + K)⟩
        intro y hy
        cases fuel with
        | zero => simp [stripeFromAux] at hy
        | succ fuel =>
          simp only [stripeFromAux] at hy
          by_cases hsk : s + K < N
          · simp [hsk] at hy
            omega
          · simp [hsk] at hy
      · simp [hs]
  exact this _ s

/-- Chunking loses and reorders nothing: concatenating the chunks gives
back the submitted list. -/
lemma chunkFiles_flatten (bs : Nat) (hbs : 0 < bs) :
    ∀ files : List JsFile, (chunkFiles bs files).flatten = files := by
  have H : ∀ n (files : List JsFile), files.length ≤ n →
      (chunkFiles bs files).flatten = files := by
    intro n
    induction n with
    | zero =>
      intro files h
      have : files = [] := List.length_eq_zero.mp (Nat.le_zero.mp h)
      simp [this]
    | succ n ih =>
      intro files h
      cases files with
      | nil => simp
      | cons f fs =>
        rw [chunkFiles_cons bs hbs]
        have hd : ((f :: fs).drop bs).length = (f :: fs).length - bs := by
          simp [List.length_drop]
        have hc : (f :: fs).length = fs.length + 1 := rfl
        rw [List.flatten_cons, ih ((f :: fs).drop bs) (by omega)]
        exact List.take_append_drop bs (f :: fs)
  intro files
  exact H files.length files le_rfl

/-- Every chunk is nonempty and no larger than the batch size. -/
lemma chunkFiles_mem_length (bs : Nat) (hbs : 0 < bs) :
    ∀ files : List JsFile, ∀ c ∈ chunkFiles bs files, 0 < c.length ∧ c.length ≤ bs := by
  have H : ∀ n (files : List JsFile), files.length ≤ n →
      ∀ c ∈ chunkFiles bs files, 0 < c.length ∧ c.length ≤ bs := by
    intro n
    induction n with
    | zero =>
      intro files h c hc
      have : files = [] := List.length_eq_zero.mp (Nat.le_zero.mp h)
      subst this
      simp at hc
    | succ n ih =>
      intro files h c hc
      cases files with
      | nil => simp at hc
      | cons f fs =>
        rw [chunkFiles_cons bs hbs] at hc
        have hd : ((f :: fs).drop bs).length = (f :: fs).length - bs := by
          simp [List.length_drop]
        have hlc : (f :: fs).length = fs.length + 1 := rfl
        rcases List.mem_cons.mp hc with rfl | hmem
        · constructor
          · simp [List.length_take]
            omega
          · simp [List.length_take]
        · exact ih ((f :: fs).drop bs) (by omega) c hmem
  intro files
  exact H files.length files le_rfl

/-- All chunks except possibly the last have length exactly the batch
size. -/
lemma chunkFiles_dropLast_length (bs : Nat) (hbs : 0 < bs) :
    ∀ files : List JsFile, ∀ c ∈ (chunkFiles bs files).dropLast, c.length = bs := by
  have H : ∀ n (files : List JsFile), files.length ≤ n →
      ∀ c ∈ (chunkFiles bs files).dropLast, c.length = bs := by
    intro n
    induction n with
    | zero =>
      intro files h c hc
      have : files = [] := List.length_eq_zero.mp (Nat.le_zero.mp h)
      subst this
      simp at hc
    | succ n ih =>
      intro files h c hc
      cases files with
      | nil => simp at hc
      | cons f fs =>
        rw [chunkFiles_cons bs hbs] at hc
        have hd : ((f :: fs).drop bs).length = (f :: fs).length - bs := by
          simp [List.length_drop]
        have hlc : (f :: fs).length = fs.length + 1 := rfl
        by_cases hrest : (f :: fs).drop bs = []
        · rw [hrest] at hc
          simp at hc
        · have hne : chunkFiles bs ((f :: fs).drop bs) ≠ [] := by
            cases hdrop : (f :: fs).drop bs with
            | nil => exact absurd hdrop hrest
            | cons g gs =>
              rw [chunkFiles_cons bs hbs]
              simp
          rw [List.dropLast_cons_of_ne_nil hne] at hc
          rcases List.mem_cons.mp hc with rfl | hmem
          · have hlen : bs < (f :: fs).length := by
              by_contra hle
              exact hrest (List.drop_eq_nil_of_le (by omega))
            simp [List.length_take]
            omega
          · exact ih ((f :: fs).drop bs) (by omega) c hmem
  intro files
  exact H files.length files le_rfl

/-- The number of chunks is `⌈n / bs⌉ = (n + bs - 1) / bs`. -/
lemma chunkFiles_count (bs : Nat) (hbs : 0 < bs) :
    ∀ files : List JsFile,
      (chunkFiles bs files).length = (files.length + bs - 1) / bs := by
  have H : ∀ n (files : List JsFile), files.length ≤ n →
      (chunkFiles bs files).length = (files.length + bs - 1) / bs := by
    intro n
    induction n with
    | zero =>
      intro files h
      have : files = [] := List.length_eq_zero.mp (Nat.le_zero.mp h)
      subst this
      simp only [chunkFiles_nil, List.length_nil]
      exact (Nat.div_eq_of_lt (by omega : 0 + bs - 1 < bs)).symm
    | succ n ih =>
      intro files h
      cases files with
      | nil =>
        simp only [chunkFiles_nil, List.length_nil]
        exact (Nat.div_eq_of_lt (by omega : 0 + bs - 1 < bs)).symm
      | cons f fs =>
        rw [chunkFiles_cons bs hbs]
        have hd : ((f :: fs).drop bs).length = (f :: fs).length - bs := by
          simp [List.length_drop]
        have hlc : (f :: fs).length = fs.length + 1 := rfl
        rw [List.length_cons, ih ((f :: fs).drop bs) (by omega), hd]
        rcases le_or_lt (f :: fs).length bs with hle | hlt
        · have h1 : (f :: fs).length - bs = 0 := by omega
          rw [h1]
          rw [Nat.div_eq_of_lt (by omega : 0 + bs - 1 < bs)]
          have h2 : (f :: fs).length + bs - 1 = ((f :: fs).length - 1) + bs := by omega
          rw [h2, Nat.add_div_right _ hbs,
            Nat.div_eq_of_lt (by omega : (f :: fs).length - 1 < bs)]
        · have h2 : (f :: fs).length - bs + bs - 1 = ((f :: fs).length - bs - 1) + bs := by
            omega
          have h3 : (f :: fs).length + bs - 1 = ((f :: fs).length - 1) + bs := by omega
          rw [h2, h3, Nat.add_div_right _ hbs, Nat.add_div_right _ hbs]
          have h4 : (f :: fs).length - bs - 1 + bs = (f :: fs).length - 1 := by omega
          rw [← h4]
          rw [Nat.add_div_right _ hbs]
  intro files
  exact H files.length files le_rfl

/-- Shifting a stripe start down by one full stride matches the stripe in
a window shrunk by one stride. -/
lemma stripeFrom_shift (K N : Nat) (hK : 0 < K) (hKN : K ≤ N) :
    ∀ m s, N - s ≤ m →
      (stripeFrom K N (s + K)).length = (stripeFrom K (N - K) s).length := by
  intro m
  induction m with
  | zero =>
    intro s h
    have h1 : N ≤ s := by omega
    rw [stripeFrom_of_le K N (s + K) (by omega),
      stripeFrom_of_le K (N - K) s (by omega)]
  | succ m ih =>
    intro s h
    rw [stripeFrom_eq K N (s + K) hK, stripeFrom_eq K (N - K) s hK]
    by_cases hs : s + K < N
    · have hs2 : s < N - K := by omega
      simp only [hs, hs2, if_true, List.length_cons]
      rw [ih (s + K) (by omega)]
    · have hs2 : ¬ s < N - K := by omega
      simp [hs, hs2]

/-- Summing the indicator of `l < N` over `l < K` gives `min K N`. -/
lemma sum_indicator_lt (K N : Nat) :
    (∑ l ∈ Finset.range K, (if l < N then 1 else 0)) = min K N := by
  induction K with
  | zero => simp
  | succ K ih =>
    rw [Finset.sum_range_succ, ih]
    by_cases h : K < N
    · simp only [h, if_true]
      omega
    · simp only [h, if_false]
      omega

/-- The `K` stripes of `[0, N)` partition it: their lengths sum to `N`. -/
lemma stripe_sum (K : Nat) (hK : 0 < K) :
    ∀ N, (∑ l ∈ Finset.range K, (stripeFrom K N l).length) = N := by
  intro N
  induction N using Nat.strong_induction_on with
  | _ N ih =>
    rcases Nat.eq_zero_or_pos N with rfl | hN
    · apply Finset.sum_eq_zero
      intro l _
      rw [stripeFrom_of_le K 0 l (Nat.zero_le l)]
      rfl
    · rcases le_or_lt K N with hKN | hNK
      · have hstep : ∀ l ∈ Finset.range K,
            (stripeFrom K N l).length = (stripeFrom K (N - K) l).length + 1 := by
          intro l hl
          have hlK : l < K := Finset.mem_range.mp hl
          rw [stripeFrom_eq K N l hK]
          simp only [(by omega : l < N), if_true, List.length_cons]
          rw [stripeFrom_shift K N hK hKN (N - l) l le_rfl]
        rw [Finset.sum_congr rfl hstep, Finset.sum_add_distrib]
        rw [ih (N - K) (by omega)]
        simp
        omega
      · have hstep : ∀ l ∈ Finset.range K,
            (stripeFrom K N l).length = if l < N then 1 else 0 := by
          intro l hl
          by_cases hlN : l < N
          · rw [stripeFrom_eq K N l hK]
            simp only [hlN, if_true, List.length_cons,
              stripeFrom_of_le K N (l + K) (by omega)]
            rfl
          · simp [stripeFrom_of_le K N l (by omega), hlN]
        rw [Finset.sum_congr rfl hstep, sum_indicator_lt]
        omega

/-- The stripes of the launched lanes (`l < min K N`) already cover
`[0, N)`: lanes `l ≥ N` (present only when `N < K`) have empty stripes. -/
lemma stripe_sum_min (K N : Nat) (hK : 0 < K) :
    (∑ l ∈ Finset.range (min K N), (stripeFrom K N l).length) = N := by
  have h1 : (∑ l ∈ Finset.range (min K N), (stripeFrom K N l).length)
      = ∑ l ∈ Finset.range K, (stripeFrom K N l).length := by
    apply Finset.sum_subset
    · exact Finset.range_subset.mpr (Nat.min_le_left K N)
    · intro l hl hnl
      have hlK : l < K := Finset.mem_range.mp hl
      have hge : min K N ≤ l := by
        by_contra hcon
        exact hnl (Finset.mem_range.mpr (by omega))
      rw [stripeFrom_of_le K N l (by omega)]
      rfl
  rw [h1, stripe_sum K hK N]

/-! ### Engine state: counters, progress record, observable events -/

/-- The `this.progress` record `{current, total, batch, batchTotal}`. -/
structure ProgressRec where
  current : Nat
  total : Nat
  batch : Nat
  batchTotal : Nat
deriving DecidableEq, Repr

/-- One entry of the module-level `errorNotifications` log (the
timestamp string is abstracted away). -/
structure ErrorRecord where
  fileName : String
  errorMessage : String
deriving DecidableEq, Repr

/-- Ghost trace of observable engine activity: callback invocations and
batch/item boundaries, in the order they happen. -/
inductive Event
  | progressFired (p : ProgressRec)
  | errorFired (fileName msg : String)
  | itemDone (batchIndex idx : Nat) (fileName : String) (ok : Bool)
  | batchStarted (batchIndex : Nat)
  | batchEnded (batchIndex : Nat)
  | completeFired (filesProcessed errors : Nat)
deriving DecidableEq, Repr

/-- The mutable engine state outside the queue: `processingStats`
(`filesProcessed`, `errors`, `startTime`, `endTime`), the module-level
`errorsCount` and `errorNotifications`, `this.progress`,
`this.activeOperations`, plus the ghost event trace. -/
structure EngineStats where
  filesProcessed : Nat
  errors : Nat
  errorsCount : Nat
  errorLog : List ErrorRecord
  progress : ProgressRec
  active : Nat
  startTime : Nat
  endTime : Nat
  events : List Event
deriving DecidableEq, Repr

/-- The success branch of `processFileInBatch`'s `try`:
`processingStats.filesProcessed++; this.progress.current++;
this.progress.batch++;` then `onProgress(this.progress)` fires with the
updated record. -/
def recordSuccess (bi idx : Nat) (fileName : String) (s : EngineStats) :
    EngineStats :=
  let p := { s.progress with
    current := s.progress.current + 1, batch := s.progress.batch + 1 }
  { s with
    filesProcessed := s.filesProcessed + 1,
    progress := p,
    events := s.events ++ [.itemDone bi idx fileName true, .progressFired p] }

/-- The `catch` branch of `processFileInBatch`:
`processingStats.errors++; errorsCount++; errorNotifications.push(…);`
then `onError(file, error)` fires.  No progress field is touched and no
`onProgress` fires. -/
def recordError (bi idx : Nat) (fileName msg : String) (s : EngineStats) :
    EngineStats :=
  { s with
    errors := s.errors + 1,
    errorsCount := s.errorsCount + 1,
    errorLog := s.errorLog ++ [⟨fileName, msg⟩],
    events := s.events ++ [.itemDone bi idx fileName false,
      .errorFired fileName msg] }

/-! ### Batch execution: lanes and the small-step relation -/

/-- One lane of `processFileInBatch`: `next` is the `fileIndex` of the
current call frame, `inFlight` whether the lane sits between
`activeOperations++` and `activeOperations--` (i.e. is awaiting
`executeOperation`).  `done` is the ghost list of indices whose outcome
this lane has already recorded, in order. -/
structure Lane where
  next : Nat
  inFlight : Bool
  done : List Nat
deriving DecidableEq, Repr, Inhabited

/-- State of one batch in execution. -/
structure BatchState where
  lanes : List Lane
  stats : EngineStats
deriving DecidableEq, Repr

/-- Effect of a lane entering `processFileInBatch` for its current index
(`activeOperations++`, then suspend on `await executeOperation`).
`dn` is the lane's ghost outcome log, unchanged here; the step relation
forces it to match the lane being started. -/
def startState (st : BatchState) (l idx : Nat) (dn : List Nat) : BatchState :=
  ⟨st.lanes.set l ⟨idx, true, dn⟩,
   { st.stats with active := st.stats.active + 1 }⟩

/-- Effect of the awaited operation settling: the try/catch body records
the outcome, `activeOperations--`, and the lane moves on to
`fileIndex + maxConcurrent`. -/
def finishState (ext : Ext) (b : Batch) (K : Nat) (st : BatchState)
    (l idx : Nat) (dn : List Nat) (f : JsFile) : BatchState :=
  let s1 := match itemResult ext f b.op with
    | .ok _ => recordSuccess b.batchIndex idx f.name st.stats
    | .error m => recordError b.batchIndex idx f.name m st.stats
  ⟨st.lanes.set l ⟨idx + K, false, dn ++ [idx]⟩,
   { s1 with active := s1.active - 1 }⟩

/-- Small-step transition of a batch under execution: any lane whose
index is still in range may start its current item; any in-flight lane
may have its awaited operation settle.  The interleaving across lanes is
unconstrained, as in the source (completion order of the awaited
promises is external). -/
inductive BatchStep (ext : Ext) (b : Batch) (K : Nat) :
    BatchState → BatchState → Prop
  | start (st : BatchState) (l idx : Nat) (dn : List Nat)
      (hl : st.lanes[l]? = some ⟨idx, false, dn⟩)
      (hidx : idx < b.files.length) :
      BatchStep ext b K st (startState st l idx dn)
  | finish (st : BatchState) (l idx : Nat) (dn : List Nat) (f : JsFile)
      (hl : st.lanes[l]? = some ⟨idx, true, dn⟩)
      (hf : b.files[idx]? = some f) :
      BatchStep ext b K st (finishState ext b K st l idx dn f)

/-- `processBatch` launches `min(maxConcurrent, batch.files.length)`
lanes at indices `0 … min(K,N)-1`. -/
def initLanes (K N : Nat) : List Lane :=
  (List.range (min K N)).map fun i => ⟨i, false, []⟩

/-- `processBatch`'s synchronous prelude: `progress.batch = 0`,
`progress.batchTotal = batch.files.length`, lanes launched. -/
def initBatchState (b : Batch) (K : Nat) (s : EngineStats) : BatchState :=
  ⟨initLanes K b.files.length,
   { s with
     progress := { s.progress with batch := 0, batchTotal := b.files.length },
     events := s.events ++ [.batchStarted b.batchIndex] }⟩

/-- `Promise.allSettled(promises)` has resolved: every lane has run off
the end of its stripe and none is in flight. -/
def BatchDone (b : Batch) (st : BatchState) : Prop :=
  ∀ ln ∈ st.lanes, ln.inFlight = false ∧ b.files.length ≤ ln.next

/-- Reachability inside one batch execution started from stats `s`. -/
def BatchReach (ext : Ext) (b : Batch) (K : Nat) (s : EngineStats)
    (st : BatchState) : Prop :=
  Relation.ReflTransGen (BatchStep ext b K) (initBatchState b K s) st

/-- A complete execution of one batch: `await this.processBatch(batch)`
returns, leaving stats `s'`.  The ghost `batchEnded` marks the return. -/
def BatchRun (ext : Ext) (b : Batch) (K : Nat) (s s' : EngineStats) : Prop :=
  ∃ st : BatchState, BatchReach ext b K s st ∧ BatchDone b st ∧
    s' = { st.stats with
      events := st.stats.events ++ [.batchEnded b.batchIndex] }

/-- The drain loop body: `while (queue.length > 0) { batch =
queue.shift(); await processBatch(batch); }` — each head batch runs to
completion before the next is dequeued. -/
inductive Drain (ext : Ext) (K : Nat) : List Batch → EngineStats →
    EngineStats → Prop
  | nil (s : EngineStats) : Drain ext K [] s s
  | cons (b : Batch) (q : List Batch) (s s' s'' : EngineStats)
      (hb : BatchRun ext b K s s')
      (hq : Drain ext K q s' s'') :
      Drain ext K (b :: q) s s''

/-- `startProcessing`'s prologue: `processingStats.startTime = Date.now();
processingStats.filesProcessed = 0; processingStats.errors = 0;`. -/
def resetRun (t0 : Nat) (s : EngineStats) : EngineStats :=
  { s with filesProcessed := 0, errors := 0, startTime := t0 }

/-- A full `startProcessing` run over queue snapshot `q`: reset the
per-run counters, drain every batch, record `endTime` and fire
`onComplete` with the summary counters. -/
def RunToCompletion (ext : Ext) (K : Nat) (q : List Batch) (t0 t1 : Nat)
    (s s' : EngineStats) : Prop :=
  ∃ smid : EngineStats, Drain ext K q (resetRun t0 s) smid ∧
    s' = { smid with
      endTime := t1,
      events := smid.events ++ [.completeFired smid.filesProcessed smid.errors] }

/-! ### Generic list helpers for the invariant proofs -/

lemma countP_set {α : Type} (p : α → Bool) :
    ∀ (ls : List α) (i : Nat) (x y : α), ls[i]? = some y →
      (ls.set i x).countP p + (if p y then 1 else 0)
        = ls.countP p + (if p x then 1 else 0) := by
  intro ls
  induction ls with
  | nil => intro i x y h; simp at h
  | cons a as ih =>
    intro i x y h
    cases i with
    | zero =>
      simp at h
      subst h
      simp [List.set, List.countP_cons]
      omega
    | succ i =>
      simp at h
      simp only [List.set, List.countP_cons]
      have := ih i x y h
      omega

lemma sumMap_set {α : Type} (g : α → Nat) :
    ∀ (ls : List α) (i : Nat) (x y : α), ls[i]? = some y →
      ((ls.set i x).map g).sum + g y = (ls.map g).sum + g x := by
  intro ls
  induction ls with
  | nil => intro i x y h; simp at h
  | cons a as ih =>
    intro i x y h
    cases i with
    | zero =>
      simp at h
      subst h
      simp [List.set]
      omega
    | succ i =>
      simp at h
      simp only [List.set, List.map_cons, List.sum_cons]
      have := ih i x y h
      omega

lemma sum_map_range (f : Nat → Nat) (n : Nat) :
    ((List.range n).map f).sum = ∑ l ∈ Finset.range n, f l := by
  induction n with
  | zero => simp
  | succ n ih => rw [List.range_succ, Finset.sum_range_succ]; simp [ih]

/-! ### Event classifiers -/

/-- Item-level events: everything a batch's lanes emit between the batch
boundaries. -/
def isItemEvent : Event → Bool
  | .progressFired _ => true
  | .errorFired _ _ => true
  | .itemDone _ _ _ _ => true
  | _ => false

/-- An `onError` invocation. -/
def isErrorEvent : Event → Bool
  | .errorFired _ _ => true
  | _ => false

/-- An `onProgress` invocation. -/
def isProgressEvent : Event → Bool
  | .progressFired _ => true
  | _ => false

/-- An `onComplete` invocation. -/
def isCompleteEvent : Event → Bool
  | .completeFired _ _ => true
  | _ => false

/-- An item outcome (ghost marker, success or error). -/
def isOutcomeEvent : Event → Bool
  | .itemDone _ _ _ _ => true
  | _ => false

/-! ### The batch-execution invariant -/

/-- Per-lane invariant: lane `l` owns stripe `l`; `done` is the already
recorded prefix of that stripe and `next` the cursor into it. -/
structure LaneInv (K N l : Nat) (ln : Lane) : Prop where
  stride : ln.done ++ stripeFrom K N ln.next = stripeFrom K N l
  flight_lt : ln.inFlight = true → ln.next < N

/-- Invariant of batch execution, relative to the stats `s0` at batch
start. -/
structure BatchInv (s0 : EngineStats) (b : Batch) (K : Nat)
    (st : BatchState) : Prop where
  lanes_length : st.lanes.length = min K b.files.length
  active_eq : st.stats.active
      = s0.active + st.lanes.countP (fun ln => ln.inFlight)
  lane_inv : ∀ l ln, st.lanes[l]? = some ln → LaneInv K b.files.length l ln
  counts : st.stats.filesProcessed + st.stats.errors
      = s0.filesProcessed + s0.errors
        + (st.lanes.map (fun ln => ln.done.length)).sum
  log_len : st.stats.errorLog.length + s0.errors
      = s0.errorLog.length + st.stats.errors
  ecount : st.stats.errorsCount + s0.errors
      = s0.errorsCount + st.stats.errors
  error_events : st.stats.events.countP isErrorEvent + s0.errors
      = s0.events.countP isErrorEvent + st.stats.errors
  progress_events : st.stats.events.countP isProgressEvent + s0.filesProcessed
      = s0.events.countP isProgressEvent + st.stats.filesProcessed
  prog_current : st.stats.progress.current + s0.filesProcessed
      = s0.progress.current + st.stats.filesProcessed
  prog_batch : st.stats.progress.batch + s0.filesProcessed
      = st.stats.filesProcessed
  prog_total : st.stats.progress.total = s0.progress.total
  prog_btotal : st.stats.progress.batchTotal = b.files.length
  events_shape : ∃ E : List Event,
      st.stats.events = s0.events ++ Event.batchStarted b.batchIndex :: E
        ∧ ∀ e ∈ E, isItemEvent e = true
  times : st.stats.startTime = s0.startTime ∧ st.stats.endTime = s0.endTime
  errors_mono : s0.errors ≤ st.stats.errors
  fp_mono : s0.filesProcessed ≤ st.stats.filesProcessed

/-- The invariant holds at batch start. -/
lemma batchInv_init (b : Batch) (K : Nat) (s0 : EngineStats) :
    BatchInv s0 b K (initBatchState b K s0) := by
  have hcount : (initLanes K b.files.length).countP (fun ln => ln.inFlight) = 0 := by
    rw [List.countP_eq_zero]
    intro ln hln
    simp [initLanes] at hln
    obtain ⟨i, _, rfl⟩ := hln
    simp
  have hsum : ((initLanes K b.files.length).map (fun ln => ln.done.length)).sum = 0 := by
    simp only [initLanes, List.map_map]
    have hfz : ((fun ln => ln.done.length) ∘ fun i => Lane.mk i false [])
        = fun _ => 0 := rfl
    rw [hfz]
    simp
  constructor
  · simp [initBatchState, initLanes]
  · show s0.active = s0.active
      + (initLanes K b.files.length).countP (fun ln => ln.inFlight)
    rw [hcount]
    omega
  · intro l ln h
    simp only [initBatchState] at h
    have hlen : l < min K b.files.length := by
      by_contra hcon
      rw [List.getElem?_eq_none] at h
      · cases h
      · simp [initLanes]
        omega
    rw [initLanes, List.getElem?_map, List.getElem?_range hlen] at h
    simp at h
    cases h
    constructor
    · simp
    · intro hcon
      cases hcon
  · show s0.filesProcessed + s0.errors = s0.filesProcessed + s0.errors
      + ((initLanes K b.files.length).map (fun ln => ln.done.length)).sum
    rw [hsum]
    omega
  · exact by simp [initBatchState]
  · exact by simp [initBatchState]
  · simp [initBatchState, List.countP_append, isErrorEvent]
  · simp [initBatchState, List.countP_append, isProgressEvent]
  · simp [initBatchState]
  · simp [initBatchState]
  · simp [initBatchState]
  · simp [initBatchState]
  · exact ⟨[], by simp [initBatchState], by simp⟩
  · exact ⟨by simp [initBatchState], by simp [initBatchState]⟩
  · exact le_rfl
  · exact le_rfl

lemma countP_two (p : Event → Bool) (es : List Event) (e1 e2 : Event) :
    (es ++ [e1, e2]).countP p
      = es.countP p + ((if p e1 then 1 else 0) + (if p e2 then 1 else 0)) := by
  rw [List.countP_append]
  congr 1
  cases hp1 : p e1 <;> cases hp2 : p e2 <;>
    simp [List.countP_cons, hp1, hp2]

/-- Unfolded form of `finishState` when the operation succeeded. -/
lemma finishState_ok (ext : Ext) (b : Batch) (K : Nat) (st : BatchState)
    (l idx : Nat) (dn : List Nat) (f : JsFile) (u : Unit)
    (h : itemResult ext f b.op = .ok u) :
    finishState ext b K st l idx dn f
      = ⟨st.lanes.set l ⟨idx + K, false, dn ++ [idx]⟩,
         { recordSuccess b.batchIndex idx f.name st.stats with
             active := st.stats.active - 1 }⟩ := by
  simp [finishState, h, recordSuccess]

/-- Unfolded form of `finishState` when the operation threw. -/
lemma finishState_error (ext : Ext) (b : Batch) (K : Nat) (st : BatchState)
    (l idx : Nat) (dn : List Nat) (f : JsFile) (m : String)
    (h : itemResult ext f b.op = .error m) :
    finishState ext b K st l idx dn f
      = ⟨st.lanes.set l ⟨idx + K, false, dn ++ [idx]⟩,
         { recordError b.batchIndex idx f.name m st.stats with
             active := st.stats.active - 1 }⟩ := by
  simp [finishState, h, recordError]

/-- The invariant is preserved by every batch step. -/
lemma batchInv_step (ext : Ext) (b : Batch) (K : Nat) (hK : 0 < K)
    (s0 : EngineStats) {st st' : BatchState}
    (hinv : BatchInv s0 b K st) (hstep : BatchStep ext b K st st') :
    BatchInv s0 b K st' := by
  cases hstep with
  | start l idx dn hl hidx =>
    have hlt : l < st.lanes.length := by
      by_contra hcon
      rw [List.getElem?_eq_none (Nat.le_of_not_lt hcon)] at hl
      cases hl
    have hli := hinv.lane_inv l _ hl
    have hcp : (st.lanes.set l ⟨idx, true, dn⟩).countP (fun ln => ln.inFlight)
        = st.lanes.countP (fun ln => ln.inFlight) + 1 := by
      have h := countP_set (fun ln => ln.inFlight) st.lanes l
          ⟨idx, true, dn⟩ ⟨idx, false, dn⟩ hl
      have h2 : (st.lanes.set l ⟨idx, true, dn⟩).countP (fun ln => ln.inFlight) + 0
          = st.lanes.countP (fun ln => ln.inFlight) + 1 := h
      omega
    have hsm : ((st.lanes.set l ⟨idx, true, dn⟩).map
          (fun ln => ln.done.length)).sum
        = (st.lanes.map (fun ln => ln.done.length)).sum := by
      have h := sumMap_set (fun ln => ln.done.length) st.lanes l
          ⟨idx, true, dn⟩ ⟨idx, false, dn⟩ hl
      have h2 : ((st.lanes.set l ⟨idx, true, dn⟩).map
            (fun ln => ln.done.length)).sum + dn.length
          = (st.lanes.map (fun ln => ln.done.length)).sum + dn.length := h
      omega
    have h1 : (st.lanes.set l ⟨idx, true, dn⟩).length = min K b.files.length := by
      rw [List.length_set]
      exact hinv.lanes_length
    have h2 : st.stats.active + 1
        = s0.active + (st.lanes.set l ⟨idx, true, dn⟩).countP
            (fun ln => ln.inFlight) := by
      rw [hcp]
      have := hinv.active_eq
      omega
    have h3 : ∀ l' ln', (st.lanes.set l ⟨idx, true, dn⟩)[l']? = some ln' →
        LaneInv K b.files.length l' ln' := by
      intro l' ln' h'
      by_cases heq : l' = l
      · subst heq
        rw [List.getElem?_set_eq_of_lt _ hlt] at h'
        have hx := Option.some.inj h'
        subst hx
        exact ⟨hli.stride, fun _ => hidx⟩
      · rw [List.getElem?_set_ne (fun hcon => heq hcon.symm)] at h'
        exact hinv.lane_inv l' ln' h'
    have h4 : st.stats.filesProcessed + st.stats.errors
        = s0.filesProcessed + s0.errors
          + ((st.lanes.set l ⟨idx, true, dn⟩).map
              (fun ln => ln.done.length)).sum := by
      rw [hsm]
      exact hinv.counts
    exact ⟨h1, h2, h3, h4, hinv.log_len, hinv.ecount, hinv.error_events,
      hinv.progress_events, hinv.prog_current, hinv.prog_batch,
      hinv.prog_total, hinv.prog_btotal, hinv.events_shape, hinv.times,
      hinv.errors_mono, hinv.fp_mono⟩
  | finish l idx dn f hl hf =>
    have hlt : l < st.lanes.length := by
      by_contra hcon
      rw [List.getElem?_eq_none (Nat.le_of_not_lt hcon)] at hl
      cases hl
    have hli := hinv.lane_inv l _ hl
    have hidxN : idx < b.files.length := hli.flight_lt rfl
    have hstr : (dn ++ [idx]) ++ stripeFrom K b.files.length (idx + K)
        = stripeFrom K b.files.length l := by
      rw [List.append_assoc]
      have hmid : idx :: stripeFrom K b.files.length (idx + K)
          = stripeFrom K b.files.length idx := by
        rw [stripeFrom_eq K b.files.length idx hK]
        simp [hidxN]
      rw [show ([idx] ++ stripeFrom K b.files.length (idx + K))
          = idx :: stripeFrom K b.files.length (idx + K) from rfl, hmid]
      exact hli.stride
    have hcp : (st.lanes.set l ⟨idx + K, false, dn ++ [idx]⟩).countP
          (fun ln => ln.inFlight) + 1
        = st.lanes.countP (fun ln => ln.inFlight) := by
      have h := countP_set (fun ln => ln.inFlight) st.lanes l
          ⟨idx + K, false, dn ++ [idx]⟩ ⟨idx, true, dn⟩ hl
      have h2 : (st.lanes.set l ⟨idx + K, false, dn ++ [idx]⟩).countP
            (fun ln => ln.inFlight) + 1
          = st.lanes.countP (fun ln => ln.inFlight) + 0 := h
      omega
    have hsm : ((st.lanes.set l ⟨idx + K, false, dn ++ [idx]⟩).map
          (fun ln => ln.done.length)).sum
        = (st.lanes.map (fun ln => ln.done.length)).sum + 1 := by
      have h := sumMap_set (fun ln => ln.done.length) st.lanes l
          ⟨idx + K, false, dn ++ [idx]⟩ ⟨idx, true, dn⟩ hl
      have h2 : ((st.lanes.set l ⟨idx + K, false, dn ++ [idx]⟩).map
            (fun ln => ln.done.length)).sum + dn.length
          = (st.lanes.map (fun ln => ln.done.length)).sum + (dn ++ [idx]).length := h
      have h3 : (dn ++ [idx]).length = dn.length + 1 := by simp
      omega
    have h1 : (st.lanes.set l ⟨idx + K, false, dn ++ [idx]⟩).length
        = min K b.files.length := by
      rw [List.length_set]
      exact hinv.lanes_length
    have h2 : st.stats.active - 1
        = s0.active + (st.lanes.set l ⟨idx + K, false, dn ++ [idx]⟩).countP
            (fun ln => ln.inFlight) := by
      have := hinv.active_eq
      omega
    have h3 : ∀ l' ln',
        (st.lanes.set l ⟨idx + K, false, dn ++ [idx]⟩)[l']? = some ln' →
        LaneInv K b.files.length l' ln' := by
      intro l' ln' h'
      by_cases heq : l' = l
      · subst heq
        rw [List.getElem?_set_eq_of_lt _ hlt] at h'
        have hx := Option.some.inj h'
        subst hx
        refine ⟨hstr, ?_⟩
        intro hcon
        cases hcon
      · rw [List.getElem?_set_ne (fun hcon => heq hcon.symm)] at h'
        exact hinv.lane_inv l' ln' h'
    obtain ⟨E, hE, hEall⟩ := hinv.events_shape
    cases hres : itemResult ext f b.op with
    | ok u =>
      rw [finishState_ok ext b K st l idx dn f u hres]
      have h4 : (st.stats.filesProcessed + 1) + st.stats.errors
          = s0.filesProcessed + s0.errors
            + ((st.lanes.set l ⟨idx + K, false, dn ++ [idx]⟩).map
                (fun ln => ln.done.length)).sum := by
        rw [hsm]
        have := hinv.counts
        omega
      have h7 : (st.stats.events ++ [Event.itemDone b.batchIndex idx f.name true,
            Event.progressFired { st.stats.progress with
              current := st.stats.progress.current + 1,
              batch := st.stats.progress.batch + 1 }]).countP isErrorEvent
            + s0.errors
          = s0.events.countP isErrorEvent + st.stats.errors := by
        rw [countP_two]
        have h := hinv.error_events
        simp only [isErrorEvent]
        simp
        omega
      have h8 : (st.stats.events ++ [Event.itemDone b.batchIndex idx f.name true,
            Event.progressFired { st.stats.progress with
              current := st.stats.progress.current + 1,
              batch := st.stats.progress.batch + 1 }]).countP isProgressEvent
            + s0.filesProcessed
          = s0.events.countP isProgressEvent + (st.stats.filesProcessed + 1) := by
        rw [countP_two]
        have h := hinv.progress_events
        simp only [isProgressEvent]
        simp
        omega
      have h9 : (st.stats.progress.current + 1) + s0.filesProcessed
          = s0.progress.current + (st.stats.filesProcessed + 1) := by
        have := hinv.prog_current
        omega
      have h10 : (st.stats.progress.batch + 1) + s0.filesProcessed
          = st.stats.filesProcessed + 1 := by
        have := hinv.prog_batch
        omega
      have h13 : ∃ E2 : List Event,
          st.stats.events ++ [Event.itemDone b.batchIndex idx f.name true,
            Event.progressFired { st.stats.progress with
              current := st.stats.progress.current + 1,
              batch := st.stats.progress.batch + 1 }]
            = s0.events ++ Event.batchStarted b.batchIndex :: E2
            ∧ ∀ e ∈ E2, isItemEvent e = true := by
        refine ⟨E ++ [Event.itemDone b.batchIndex idx f.name true,
          Event.progressFired { st.stats.progress with
            current := st.stats.progress.current + 1,
            batch := st.stats.progress.batch + 1 }], ?_, ?_⟩
        · rw [hE]
          simp
        · intro e he
          rcases List.mem_append.mp he with hin | hin
          · exact hEall e hin
          · simp only [List.mem_cons] at hin
            rcases hin with rfl | rfl | hin
            · rfl
            · rfl
            · simp at hin
      exact ⟨h1, h2, h3, h4, hinv.log_len, hinv.ecount, h7, h8, h9, h10,
        hinv.prog_total, hinv.prog_btotal, h13, hinv.times,
        hinv.errors_mono, le_trans hinv.fp_mono (Nat.le_succ _)⟩
    | error m =>
      rw [finishState_error ext b K st l idx dn f m hres]
      have h4 : st.stats.filesProcessed + (st.stats.errors + 1)
          = s0.filesProcessed + s0.errors
            + ((st.lanes.set l ⟨idx + K, false, dn ++ [idx]⟩).map
                (fun ln => ln.done.length)).sum := by
        rw [hsm]
        have := hinv.counts
        omega
      have h5 : (st.stats.errorLog ++ [ErrorRecord.mk f.name m]).length + s0.errors
          = s0.errorLog.length + (st.stats.errors + 1) := by
        rw [List.length_append]
        have := hinv.log_len
        simp only [List.length_cons, List.length_nil]
        omega
      have h6 : (st.stats.errorsCount + 1) + s0.errors
          = s0.errorsCount + (st.stats.errors + 1) := by
        have := hinv.ecount
        omega
      have h7 : (st.stats.events ++ [Event.itemDone b.batchIndex idx f.name false,
            Event.errorFired f.name m]).countP isErrorEvent + s0.errors
          = s0.events.countP isErrorEvent + (st.stats.errors + 1) := by
        rw [countP_two]
        have h := hinv.error_events
        simp only [isErrorEvent]
        simp
        omega
      have h8 : (st.stats.events ++ [Event.itemDone b.batchIndex idx f.name false,
            Event.errorFired f.name m]).countP isProgressEvent + s0.filesProcessed
          = s0.events.countP isProgressEvent + st.stats.filesProcessed := by
        rw [countP_two]
        have h := hinv.progress_events
        simp only [isProgressEvent]
        simp
        omega
      have h13 : ∃ E2 : List Event,
          st.stats.events ++ [Event.itemDone b.batchIndex idx f.name false,
            Event.errorFired f.name m]
            = s0.events ++ Event.batchStarted b.batchIndex :: E2
            ∧ ∀ e ∈ E2, isItemEvent e = true := by
        refine ⟨E ++ [Event.itemDone b.batchIndex idx f.name false,
          Event.errorFired f.name m], ?_, ?_⟩
        · rw [hE]
          simp
        · intro e he
          rcases List.mem_append.mp he with hin | hin
          · exact hEall e hin
          · simp only [List.mem_cons] at hin
            rcases hin with rfl | rfl | hin
            · rfl
            · rfl
            · simp at hin
      exact ⟨h1, h2, h3, h4, h5, h6, h7, h8, hinv.prog_current, hinv.prog_batch,
        hinv.prog_total, hinv.prog_btotal, h13, hinv.times,
        le_trans hinv.errors_mono (Nat.le_succ _), hinv.fp_mono⟩

/-- The invariant holds in every reachable state of a batch execution. -/
lemma batchInv_reach (ext : Ext) (b : Batch) (K : Nat) (hK : 0 < K)
    (s0 : EngineStats) {st : BatchState}
    (h : BatchReach ext b K s0 st) : BatchInv s0 b K st := by
  induction h with
  | refl => exact batchInv_init b K s0
  | tail hsteps hstep ih => exact batchInv_step ext b K hK s0 ih hstep

/-- Consequences of the invariant once a batch is complete: the active
count is back to its starting value, every lane has recorded exactly its
stripe, and the per-run counters have advanced by exactly the batch
size. -/
lemma batchDone_facts (ext : Ext) (b : Batch) (K : Nat) (hK : 0 < K)
    (s0 : EngineStats) {st : BatchState}
    (hreach : BatchReach ext b K s0 st) (hdone : BatchDone b st) :
    st.stats.active = s0.active
      ∧ (∀ l ln, st.lanes[l]? = some ln →
          ln.done = stripeFrom K b.files.length l)
      ∧ st.stats.filesProcessed + st.stats.errors
          = s0.filesProcessed + s0.errors + b.files.length := by
  have hinv := batchInv_reach ext b K hK s0 hreach
  have hcnt0 : st.lanes.countP (fun ln => ln.inFlight) = 0 := by
    rw [List.countP_eq_zero]
    intro ln hln
    simp [(hdone ln hln).1]
  have hactive : st.stats.active = s0.active := by
    have := hinv.active_eq
    omega
  have hdn : ∀ l ln, st.lanes[l]? = some ln →
      ln.done = stripeFrom K b.files.length l := by
    intro l ln h
    have hmem : ln ∈ st.lanes := List.getElem?_mem h
    have hnext : b.files.length ≤ ln.next := (hdone ln hmem).2
    have hstr := (hinv.lane_inv l ln h).stride
    rw [stripeFrom_of_le K b.files.length ln.next hnext] at hstr
    simpa using hstr
  refine ⟨hactive, hdn, ?_⟩
  have hmapeq : st.lanes.map (fun ln => ln.done.length)
      = (List.range (min K b.files.length)).map
          (fun l => (stripeFrom K b.files.length l).length) := by
    apply List.ext_getElem
    · simp [hinv.lanes_length]
    · intro i hi1 hi2
      simp only [List.getElem_map]
      have hlt : i < st.lanes.length := by simpa using hi1
      have hsome : st.lanes[i]? = some st.lanes[i] :=
        List.getElem?_eq_some.mpr ⟨hlt, rfl⟩
      rw [hdn i st.lanes[i] hsome]
      congr 1
      have : i < min K b.files.length := by simpa using hi2
      simp [List.getElem_range]
  have hsum : (st.lanes.map (fun ln => ln.done.length)).sum = b.files.length := by
    rw [hmapeq, sum_map_range, stripe_sum_min K b.files.length hK]
  have := hinv.counts
  omega

/-- Item-level events are never completion events. -/
lemma itemEvent_not_complete (e : Event) (h : isItemEvent e = true) :
    isCompleteEvent e = false := by
  cases e <;> simp [isItemEvent, isCompleteEvent] at h ⊢

/-- Stats facts across one complete batch run. -/
lemma batchRun_facts (ext : Ext) (b : Batch) (K : Nat) (hK : 0 < K)
    {s s' : EngineStats} (h : BatchRun ext b K s s') :
    s'.filesProcessed + s'.errors
        = s.filesProcessed + s.errors + b.files.length
      ∧ s'.active = s.active
      ∧ s'.errorLog.length + s.errors = s.errorLog.length + s'.errors
      ∧ s'.errorsCount + s.errors = s.errorsCount + s'.errors
      ∧ s'.events.countP isErrorEvent + s.errors
          = s.events.countP isErrorEvent + s'.errors
      ∧ s'.events.countP isProgressEvent + s.filesProcessed
          = s.events.countP isProgressEvent + s'.filesProcessed
      ∧ s'.progress.current + s.filesProcessed
          = s.progress.current + s'.filesProcessed
      ∧ s'.progress.total = s.progress.total
      ∧ s'.startTime = s.startTime ∧ s'.endTime = s.endTime
      ∧ s.errors ≤ s'.errors ∧ s.filesProcessed ≤ s'.filesProcessed
      ∧ s'.events.countP isCompleteEvent = s.events.countP isCompleteEvent := by
  obtain ⟨st, hreach, hdone, rfl⟩ := h
  have hinv := batchInv_reach ext b K hK s hreach
  have hfacts := batchDone_facts ext b K hK s hreach hdone
  obtain ⟨E, hE, hEall⟩ := hinv.events_shape
  have herr : (st.stats.events ++ [Event.batchEnded b.batchIndex]).countP
        isErrorEvent + s.errors
      = s.events.countP isErrorEvent + st.stats.errors := by
    rw [List.countP_append]
    have h1 : ([Event.batchEnded b.batchIndex]).countP isErrorEvent = 0 := rfl
    rw [h1]
    have := hinv.error_events
    omega
  have hpro : (st.stats.events ++ [Event.batchEnded b.batchIndex]).countP
        isProgressEvent + s.filesProcessed
      = s.events.countP isProgressEvent + st.stats.filesProcessed := by
    rw [List.countP_append]
    have h1 : ([Event.batchEnded b.batchIndex]).countP isProgressEvent = 0 := rfl
    rw [h1]
    have := hinv.progress_events
    omega
  have hcomp : (st.stats.events ++ [Event.batchEnded b.batchIndex]).countP
        isCompleteEvent
      = s.events.countP isCompleteEvent := by
    rw [List.countP_append, hE, List.countP_append, List.countP_cons]
    have hE0 : E.countP isCompleteEvent = 0 := by
      rw [List.countP_eq_zero]
      intro e he
      simp [itemEvent_not_complete e (hEall e he)]
    have h1 : ([Event.batchEnded b.batchIndex]).countP isCompleteEvent = 0 := rfl
    have h2 : isCompleteEvent (Event.batchStarted b.batchIndex) = false := rfl
    rw [hE0, h1, h2]
    simp
  exact ⟨hfacts.2.2, hfacts.1, hinv.log_len, hinv.ecount, herr, hpro,
    hinv.prog_current, hinv.prog_total, hinv.times.1, hinv.times.2,
    hinv.errors_mono, hinv.fp_mono, hcomp⟩

/-! ### A concrete sequential schedule (used to exhibit complete runs) -/

/-- Deterministic schedule of one lane: start its current item, let it
settle, advance, until the stripe is exhausted.  Fuel-driven; fuel
`b.files.length` always suffices. -/
def runStripeFuel (ext : Ext) (b : Batch) (K l : Nat) :
    Nat → BatchState → BatchState
  | 0, st => st
  | fuel+1, st =>
    match st.lanes[l]? with
    | none => st
    | some ⟨_, true, _⟩ => st
    | some ⟨next, false, dn⟩ =>
      if next < b.files.length then
        match b.files[next]? with
        | some f => runStripeFuel ext b K l fuel
            (finishState ext b K (startState st l next dn) l next dn f)
        | none => st
      else st

/-- Sequential execution of a whole batch: run each lane's stripe to
exhaustion, lane 0 first. -/
def runBatchSeq (ext : Ext) (b : Batch) (K : Nat) (s : EngineStats) :
    BatchState :=
  (List.range (min K b.files.length)).foldl
    (fun acc l => runStripeFuel ext b K l b.files.length acc)
    (initBatchState b K s)

/-- The stats left by the sequential batch execution, with the ghost
batch-end marker. -/
def runBatchStats (ext : Ext) (b : Batch) (K : Nat) (s : EngineStats) :
    EngineStats :=
  { (runBatchSeq ext b K s).stats with
    events := (runBatchSeq ext b K s).stats.events
      ++ [Event.batchEnded b.batchIndex] }

/-- The sequential stripe schedule takes only legal steps. -/
lemma runStripeFuel_reach (ext : Ext) (b : Batch) (K l : Nat) :
    ∀ (fuel : Nat) (st : BatchState),
      Relation.ReflTransGen (BatchStep ext b K) st
        (runStripeFuel ext b K l fuel st) := by
  intro fuel
  induction fuel with
  | zero => intro st; exact .refl
  | succ fuel ih =>
    intro st
    cases hln : st.lanes[l]? with
    | none =>
      simp only [runStripeFuel, hln]
      exact .refl
    | some ln =>
      obtain ⟨next, fl, dn⟩ := ln
      cases fl with
      | true =>
        simp only [runStripeFuel, hln]
        exact .refl
      | false =>
        by_cases hnext : next < b.files.length
        · cases hf : b.files[next]? with
          | none =>
            simp only [runStripeFuel, hln, if_pos hnext, hf]
            exact .refl
          | some f =>
            simp only [runStripeFuel, hln, if_pos hnext, hf]
            have hlt : l < st.lanes.length := (List.getElem?_eq_some.mp hln).1
            have hstep1 : BatchStep ext b K st (startState st l next dn) :=
              BatchStep.start st l next dn hln hnext
            have hstep2 : BatchStep ext b K (startState st l next dn)
                (finishState ext b K (startState st l next dn) l next dn f) := by
              apply BatchStep.finish (startState st l next dn) l next dn f ?_ hf
              show (st.lanes.set l ⟨next, true, dn⟩)[l]? = _
              rw [List.getElem?_set_eq_of_lt _ hlt]
            exact .head hstep1 (.head hstep2 (ih _))
        · simp only [runStripeFuel, hln, if_neg hnext]
          exact .refl

/-- The stripe schedule leaves every other lane untouched. -/
lemma runStripeFuel_other (ext : Ext) (b : Batch) (K l l' : Nat)
    (hne : l' ≠ l) :
    ∀ (fuel : Nat) (st : BatchState),
      (runStripeFuel ext b K l fuel st).lanes[l']? = st.lanes[l']? := by
  intro fuel
  induction fuel with
  | zero => intro st; rfl
  | succ fuel ih =>
    intro st
    cases hln : st.lanes[l]? with
    | none => simp only [runStripeFuel, hln]
    | some ln =>
      obtain ⟨next, fl, dn⟩ := ln
      cases fl with
      | true => simp only [runStripeFuel, hln]
      | false =>
        by_cases hnext : next < b.files.length
        · cases hf : b.files[next]? with
          | none => simp only [runStripeFuel, hln, if_pos hnext, hf]
          | some f =>
            simp only [runStripeFuel, hln, if_pos hnext, hf]
            rw [ih]
            show ((st.lanes.set l ⟨next, true, dn⟩).set l
                ⟨next + K, false, dn ++ [next]⟩)[l']? = _
            rw [List.getElem?_set_ne (fun h => hne h.symm),
              List.getElem?_set_ne (fun h => hne h.symm)]
        · simp only [runStripeFuel, hln, if_neg hnext]

/-- The stripe schedule preserves the number of lanes. -/
lemma runStripeFuel_length (ext : Ext) (b : Batch) (K l : Nat) :
    ∀ (fuel : Nat) (st : BatchState),
      (runStripeFuel ext b K l fuel st).lanes.length = st.lanes.length := by
  intro fuel
  induction fuel with
  | zero => intro st; rfl
  | succ fuel ih =>
    intro st
    cases hln : st.lanes[l]? with
    | none => simp only [runStripeFuel, hln]
    | some ln =>
      obtain ⟨next, fl, dn⟩ := ln
      cases fl with
      | true => simp only [runStripeFuel, hln]
      | false =>
        by_cases hnext : next < b.files.length
        · cases hf : b.files[next]? with
          | none => simp only [runStripeFuel, hln, if_pos hnext, hf]
          | some f =>
            simp only [runStripeFuel, hln, if_pos hnext, hf]
            rw [ih]
            show ((st.lanes.set l ⟨next, true, dn⟩).set l
                ⟨next + K, false, dn ++ [next]⟩).length = _
            simp [List.length_set]
        · simp only [runStripeFuel, hln, if_neg hnext]

/-- With enough fuel the stripe schedule exhausts lane `l` and leaves it
settled. -/
lemma runStripeFuel_exhaust (ext : Ext) (b : Batch) (K l : Nat)
    (hK : 0 < K) :
    ∀ (fuel : Nat) (st : BatchState) (next : Nat) (dn : List Nat),
      st.lanes[l]? = some ⟨next, false, dn⟩ →
      b.files.length - next ≤ fuel →
      ∃ next2 dn2, (runStripeFuel ext b K l fuel st).lanes[l]?
          = some ⟨next2, false, dn2⟩ ∧ b.files.length ≤ next2 := by
  intro fuel
  induction fuel with
  | zero =>
    intro st next dn hln hfuel
    have hN : b.files.length ≤ next := by omega
    show ∃ next2 dn2, st.lanes[l]? = some ⟨next2, false, dn2⟩
        ∧ b.files.length ≤ next2
    exact ⟨next, dn, hln, hN⟩
  | succ fuel ih =>
    intro st next dn hln hfuel
    by_cases hnext : next < b.files.length
    · cases hf : b.files[next]? with
      | none =>
        exfalso
        have := List.getElem?_eq_none_iff.mp hf
        omega
      | some f =>
        simp only [runStripeFuel, hln, if_pos hnext, hf]
        have hlt : l < st.lanes.length := (List.getElem?_eq_some.mp hln).1
        have hlt2 : l < ((st.lanes.set l ⟨next, true, dn⟩)).length := by
          rw [List.length_set]
          exact hlt
        have hln2 : (finishState ext b K (startState st l next dn) l next dn
            f).lanes[l]? = some ⟨next + K, false, dn ++ [next]⟩ := by
          show ((st.lanes.set l ⟨next, true, dn⟩).set l
              ⟨next + K, false, dn ++ [next]⟩)[l]? = _
          rw [List.getElem?_set_eq_of_lt _ hlt2]
        exact ih _ (next + K) (dn ++ [next]) hln2 (by omega)
    · simp only [runStripeFuel, hln, if_neg hnext]
      exact ⟨next, dn, rfl, by omega⟩

/-- The sequential batch schedule takes only legal steps. -/
lemma runBatchSeq_reach (ext : Ext) (b : Batch) (K : Nat) (s : EngineStats) :
    BatchReach ext b K s (runBatchSeq ext b K s) := by
  have H : ∀ (ls : List Nat) (st : BatchState),
      Relation.ReflTransGen (BatchStep ext b K) st
        (ls.foldl (fun acc l => runStripeFuel ext b K l b.files.length acc)
          st) := by
    intro ls
    induction ls with
    | nil => intro st; exact .refl
    | cons l ls ih =>
      intro st
      exact .trans (runStripeFuel_reach ext b K l _ st) (ih _)
  exact H _ _

/-- Folding stripe schedules preserves the number of lanes. -/
lemma foldStripe_length (ext : Ext) (b : Batch) (K : Nat) :
    ∀ (ls : List Nat) (st : BatchState),
      (ls.foldl (fun acc l => runStripeFuel ext b K l b.files.length acc)
        st).lanes.length = st.lanes.length := by
  intro ls
  induction ls with
  | nil => intro st; rfl
  | cons l ls ih =>
    intro st
    rw [List.foldl_cons, ih, runStripeFuel_length]

/-- After folding the stripe schedules of all the listed lanes, every
lane is settled, every listed lane is exhausted, and exhausted lanes
stay exhausted. -/
lemma foldStripe_exhaust (ext : Ext) (b : Batch) (K : Nat) (hK : 0 < K) :
    ∀ (ls : List Nat) (st : BatchState),
      (∀ (l : Nat) (ln : Lane), st.lanes[l]? = some ln → ln.inFlight = false) →
      (∀ (l : Nat) (ln : Lane), (ls.foldl
            (fun acc l => runStripeFuel ext b K l b.files.length acc)
            st).lanes[l]? = some ln → ln.inFlight = false)
      ∧ (∀ l ∈ ls, ∀ ln : Lane, (ls.foldl
            (fun acc l => runStripeFuel ext b K l b.files.length acc)
            st).lanes[l]? = some ln → b.files.length ≤ ln.next)
      ∧ (∀ (l : Nat) (ln : Lane), st.lanes[l]? = some ln →
          b.files.length ≤ ln.next →
          ∀ ln' : Lane, (ls.foldl
            (fun acc l => runStripeFuel ext b K l b.files.length acc)
            st).lanes[l]? = some ln' → b.files.length ≤ ln'.next) := by
  intro ls
  induction ls with
  | nil =>
    intro st hset
    refine ⟨hset, by simp, ?_⟩
    intro l ln h hN ln' h'
    rw [List.foldl_nil] at h'
    rw [h] at h'
    cases Option.some.inj h'
    exact hN
  | cons l ls ih =>
    intro st hset
    set st1 := runStripeFuel ext b K l b.files.length st with hst1
    have hother : ∀ l', l' ≠ l → st1.lanes[l']? = st.lanes[l']? :=
      fun l' hne => runStripeFuel_other ext b K l l' hne _ st
    have hlaneL : ∀ ln, st.lanes[l]? = some ln →
        ∃ n2 d2, st1.lanes[l]? = some ⟨n2, false, d2⟩
          ∧ b.files.length ≤ n2 := by
      intro ln hln
      obtain ⟨next, fl, dn⟩ := ln
      cases fl with
      | true => exact absurd (hset l _ hln) (by simp)
      | false =>
        exact runStripeFuel_exhaust ext b K l hK _ st next dn hln (by omega)
    have hnone : st.lanes[l]? = none → st1.lanes[l]? = none := by
      intro hn
      rw [List.getElem?_eq_none_iff] at hn ⊢
      rw [runStripeFuel_length]
      exact hn
    have hset1 : ∀ (l' : Nat) (ln : Lane), st1.lanes[l']? = some ln →
        ln.inFlight = false := by
      intro l' ln h
      by_cases hne : l' = l
      · subst hne
        cases hcase : st.lanes[l']? with
        | none => rw [hnone hcase] at h; cases h
        | some ln0 =>
          obtain ⟨n2, d2, h2, -⟩ := hlaneL ln0 hcase
          rw [h2] at h
          cases Option.some.inj h
          rfl
      · rw [hother l' hne] at h
        exact hset l' ln h
    obtain ⟨ihset, ihls, ihpres⟩ := ih st1 hset1
    refine ⟨ihset, ?_, ?_⟩
    · intro l' hl' ln h
      rcases List.mem_cons.mp hl' with rfl | hl'
      · cases hcase : st.lanes[l']? with
        | none =>
          have : (List.foldl
              (fun acc l => runStripeFuel ext b K l b.files.length acc)
              st1 ls).lanes[l']? = none := by
            rw [List.getElem?_eq_none_iff, foldStripe_length,
              runStripeFuel_length]
            rw [List.getElem?_eq_none_iff] at hcase
            exact hcase
          rw [List.foldl_cons] at h
          rw [this] at h
          cases h
        | some ln0 =>
          obtain ⟨n2, d2, h2, hN2⟩ := hlaneL ln0 hcase
          rw [List.foldl_cons] at h
          exact ihpres l' _ h2 hN2 ln h
      · rw [List.foldl_cons] at h
        exact ihls l' hl' ln h
    · intro l' ln h hN ln' h'
      rw [List.foldl_cons] at h'
      by_cases hne : l' = l
      · subst hne
        obtain ⟨n2, d2, h2, hN2⟩ := hlaneL ln h
        exact ihpres l' _ h2 hN2 ln' h'
      · have hst1l : st1.lanes[l']? = some ln := by
          rw [hother l' hne]
          exact h
        exact ihpres l' ln hst1l hN ln' h'

/-- The sequential batch schedule runs the batch to completion. -/
lemma runBatchSeq_done (ext : Ext) (b : Batch) (K : Nat) (hK : 0 < K)
    (s : EngineStats) : BatchDone b (runBatchSeq ext b K s) := by
  have hinit : ∀ (l : Nat) (ln : Lane),
      (initBatchState b K s).lanes[l]? = some ln →
      ln.inFlight = false := by
    intro l ln h
    simp only [initBatchState, initLanes] at h
    rcases hr : (List.range (min K b.files.length))[l]? with _ | v
    · rw [List.getElem?_map, hr] at h
      cases h
    · rw [List.getElem?_map, hr] at h
      simp at h
      rw [← h]
  obtain ⟨hset, hls, -⟩ := foldStripe_exhaust ext b K hK
    (List.range (min K b.files.length)) (initBatchState b K s) hinit
  intro ln hln
  obtain ⟨i, hi⟩ := List.mem_iff_getElem?.mp hln
  have hlen : i < (runBatchSeq ext b K s).lanes.length :=
    (List.getElem?_eq_some.mp hi).1
  have hlen2 : (runBatchSeq ext b K s).lanes.length
      = min K b.files.length := by
    show (List.foldl (fun acc l => runStripeFuel ext b K l b.files.length acc)
        (initBatchState b K s) (List.range (min K b.files.length))).lanes.length = _
    rw [foldStripe_length]
    simp [initBatchState, initLanes]
  refine ⟨hset i ln hi, ?_⟩
  exact hls i (List.mem_range.mpr (by omega)) ln hi

/-- The sequential schedule realizes a complete batch run. -/
lemma runBatch_batchRun (ext : Ext) (b : Batch) (K : Nat) (hK : 0 < K)
    (s : EngineStats) : BatchRun ext b K s (runBatchStats ext b K s) :=
  ⟨runBatchSeq ext b K s, runBatchSeq_reach ext b K s,
    runBatchSeq_done ext b K hK s, rfl⟩

/-- Sequential drain of a queue snapshot. -/
def runDrain (ext : Ext) (K : Nat) : List Batch → EngineStats → EngineStats
  | [], s => s
  | b :: q, s => runDrain ext K q (runBatchStats ext b K s)

/-- The sequential drain realizes the drain-loop relation. -/
lemma runDrain_drain (ext : Ext) (K : Nat) (hK : 0 < K) :
    ∀ (q : List Batch) (s : EngineStats), Drain ext K q s (runDrain ext K q s) := by
  intro q
  induction q with
  | nil => intro s; exact .nil s
  | cons b q ih =>
    intro s
    exact .cons b q s _ _ (runBatch_batchRun ext b K hK s) (ih _)

/-- Total number of work items across a queue snapshot. -/
def queueSize (q : List Batch) : Nat := (q.map (fun b => b.files.length)).sum

/-- Stats facts across a full drain of queue `q`. -/
lemma drain_facts (ext : Ext) (K : Nat) (hK : 0 < K) :
    ∀ (q : List Batch) {s s' : EngineStats}, Drain ext K q s s' →
    s'.filesProcessed + s'.errors
        = s.filesProcessed + s.errors + queueSize q
      ∧ s'.active = s.active
      ∧ s'.errorLog.length + s.errors = s.errorLog.length + s'.errors
      ∧ s'.errorsCount + s.errors = s.errorsCount + s'.errors
      ∧ s'.events.countP isErrorEvent + s.errors
          = s.events.countP isErrorEvent + s'.errors
      ∧ s'.events.countP isProgressEvent + s.filesProcessed
          = s.events.countP isProgressEvent + s'.filesProcessed
      ∧ s'.progress.current + s.filesProcessed
          = s.progress.current + s'.filesProcessed
      ∧ s'.progress.total = s.progress.total
      ∧ s'.startTime = s.startTime ∧ s'.endTime = s.endTime
      ∧ s.errors ≤ s'.errors ∧ s.filesProcessed ≤ s'.filesProcessed
      ∧ s'.events.countP isCompleteEvent = s.events.countP isCompleteEvent := by
  intro q
  induction q with
  | nil =>
    intro s s' h
    cases h
    exact ⟨by simp [queueSize], rfl, by omega, by omega, by omega, by omega,
      by omega, rfl, rfl, rfl, le_rfl, le_rfl, rfl⟩
  | cons b q ih =>
    intro s s' h
    cases h with
    | cons _ _ _ smid _ hb hq =>
      obtain ⟨b1, b2, b3, b4, b5, b6, b7, b8, b9, b10, b11, b12, b13⟩ :=
        batchRun_facts ext b K hK hb
      obtain ⟨d1, d2, d3, d4, d5, d6, d7, d8, d9, d10, d11, d12, d13⟩ := ih hq
      have hqs : queueSize (b :: q) = b.files.length + queueSize q := by
        simp [queueSize]
      exact ⟨by omega, by rw [d2, b2], by omega, by omega, by omega, by omega,
        by omega, by rw [d8, b8], by rw [d9, b9], by rw [d10, b10],
        le_trans b11 d11, le_trans b12 d12, by rw [d13, b13]⟩

/-- The contiguous block of events one batch contributes to the trace:
its start marker, item-level events only, its end marker. -/
def BatchBlock (b : Batch) (E : List Event) : Prop :=
  ∃ E1 : List Event,
    E = Event.batchStarted b.batchIndex :: E1
        ++ [Event.batchEnded b.batchIndex]
      ∧ ∀ e ∈ E1, isItemEvent e = true

/-- One complete batch run appends exactly one contiguous block. -/
lemma batchRun_events (ext : Ext) (b : Batch) (K : Nat) (hK : 0 < K)
    {s s' : EngineStats} (h : BatchRun ext b K s s') :
    ∃ E : List Event, s'.events = s.events ++ E ∧ BatchBlock b E := by
  obtain ⟨st, hreach, hdone, rfl⟩ := h
  have hinv := batchInv_reach ext b K hK s hreach
  obtain ⟨E1, hE, hall⟩ := hinv.events_shape
  refine ⟨Event.batchStarted b.batchIndex :: E1
    ++ [Event.batchEnded b.batchIndex], ?_, E1, rfl, hall⟩
  show st.stats.events ++ [Event.batchEnded b.batchIndex] = _
  rw [hE]
  simp

/-- A full drain appends one block per batch, in queue order: batches
never interleave in the observable trace. -/
lemma drain_events (ext : Ext) (K : Nat) (hK : 0 < K) :
    ∀ (q : List Batch) {s s' : EngineStats}, Drain ext K q s s' →
    ∃ Es : List (List Event), s'.events = s.events ++ Es.flatten
      ∧ List.Forall₂ BatchBlock q Es := by
  intro q
  induction q with
  | nil =>
    intro s s' h
    cases h
    exact ⟨[], by simp, List.Forall₂.nil⟩
  | cons b q ih =>
    intro s s' h
    cases h with
    | cons _ _ _ smid _ hb hq =>
      obtain ⟨E, hE, hblock⟩ := batchRun_events ext b K hK hb
      obtain ⟨Es, hEs, hforall⟩ := ih hq
      refine ⟨E :: Es, ?_, List.Forall₂.cons hblock hforall⟩
      rw [hEs, hE]
      simp

/-! ### Queue entries built by one submission -/

/-- The queue entries of one submission carry exactly the chunks, in
order. -/
lemma mkBatches_map_files (files : List JsFile) (op : String) (bs : Nat) :
    (mkBatches files op bs).map Batch.files = chunkFiles bs files := by
  simp only [mkBatches, List.map_map]
  have : (Batch.files ∘ fun p : Nat × List JsFile =>
      Batch.mk p.2 op p.1 ((files.length + bs - 1) / bs))
      = fun p => p.2 := rfl
  rw [this]
  simp [List.enum_map_snd]

/-- One submission contributes one queue entry per chunk. -/
lemma mkBatches_length (files : List JsFile) (op : String) (bs : Nat) :
    (mkBatches files op bs).length = (chunkFiles bs files).length := by
  simp [mkBatches]

/-- A nonempty submission contributes at least one batch. -/
lemma mkBatches_ne_nil (files : List JsFile) (op : String) (bs : Nat)
    (hbs : 0 < bs) (hne : files ≠ []) : mkBatches files op bs ≠ [] := by
  cases files with
  | nil => exact absurd rfl hne
  | cons f fs =>
    have h1 : chunkFiles bs (f :: fs) ≠ [] := by
      rw [chunkFiles_cons bs hbs]
      simp
    intro hcon
    apply h1
    have := mkBatches_length (f :: fs) op bs
    rw [hcon] at this
    exact List.length_eq_zero.mp this.symm

/-- One submission's batches hold exactly the submitted items. -/
lemma queueSize_mkBatches (files : List JsFile) (op : String) (bs : Nat)
    (hbs : 0 < bs) : queueSize (mkBatches files op bs) = files.length := by
  show ((mkBatches files op bs).map (fun b => b.files.length)).sum = _
  have h1 : (mkBatches files op bs).map (fun b => b.files.length)
      = (chunkFiles bs files).map List.length := by
    have := mkBatches_map_files files op bs
    rw [show (fun b : Batch => b.files.length)
        = List.length ∘ Batch.files from rfl, ← List.map_map, this]
  rw [h1, ← List.length_flatten, chunkFiles_flatten bs hbs]

/-! ### Summary arithmetic (JS semantics) -/

/-- The classes of IEEE-754 double values the summary computation can
produce. -/
inductive JSNum
  | num (q : ℚ)
  | negInf
  | posInf
  | nan
deriving DecidableEq, Repr

/-- The JS expression
`(processingStats.filesProcessed - processingStats.errors) /
processingStats.filesProcessed * 100` on doubles: division by +0 of a
negative numerator gives `-Infinity`, `0/0` gives `NaN`; for positive
`filesProcessed` the value is modelled in exact rational arithmetic. -/
def successRateJS (p e : Nat) : JSNum :=
  if p = 0 then (if e = 0 then .nan else .negInf)
  else .num (((p : ℚ) - (e : ℚ)) / (p : ℚ) * 100)

/-- `(processingStats.endTime - processingStats.startTime) / 1000`. -/
def durationJS (t0 t1 : Nat) : ℚ := ((t1 : ℚ) - (t0 : ℚ)) / 1000

/-- Sequential realization of a full `startProcessing` run. -/
def runAll (ext : Ext) (K : Nat) (q : List Batch) (t0 t1 : Nat)
    (s : EngineStats) : EngineStats :=
  let smid := runDrain ext K q (resetRun t0 s)
  { smid with
    endTime := t1,
    events := smid.events
      ++ [Event.completeFired smid.filesProcessed smid.errors] }

/-- The sequential schedule realizes `RunToCompletion`. -/
lemma runAll_complete (ext : Ext) (K : Nat) (hK : 0 < K) (q : List Batch)
    (t0 t1 : Nat) (s : EngineStats) :
    RunToCompletion ext K q t0 t1 s (runAll ext K q t0 t1 s) :=
  ⟨runDrain ext K q (resetRun t0 s), runDrain_drain ext K hK q _, rfl⟩

/-! ### Scheduler: queue plus the `isProcessing` flag -/

/-- Scheduler-level state: the global FIFO queue of batches and the
single re-entrancy flag `this.isProcessing`
(`Idle` = `false`, `Draining` = `true`). -/
structure SchedState where
  queue : List Batch
  isProcessing : Bool
deriving DecidableEq, Repr

/-- The synchronous part of a call to `addFiles(files, operation)`.
`addFiles` appends this submission's batches to the queue tail, then —
only when `isProcessing` is false — calls `startProcessing()` without
`await`.  That call runs synchronously up to its first suspension: the
guard (`isProcessing || queue.length === 0` → return), setting
`isProcessing = true`, and the first loop iteration, which `shift()`s
the head batch and then suspends inside `processBatch` (every lane
parks at `await executeOperation`, which always yields, so exactly one
batch is dequeued before control returns).  `addFiles` then returns
`this.queue.length` as observed at that moment.  The pair is the
scheduler state at return and that return value. -/
def addFiles (st : SchedState) (files : List JsFile) (op : String)
    (bs : Nat) : SchedState × Nat :=
  let q2 := st.queue ++ mkBatches files op bs
  if st.isProcessing then (⟨q2, true⟩, q2.length)
  else if q2 = [] then (⟨q2, false⟩, q2.length)
  else (⟨q2.tail, true⟩, q2.tail.length)

/-- Scheduler transitions: a submission (its synchronous part), the
drain loop dequeuing the next head batch after the previous one
completed, and the drain loop observing an empty queue and exiting. -/
inductive SchedStep (bs : Nat) : SchedState → SchedState → Prop
  | submit (st : SchedState) (files : List JsFile) (op : String) :
      SchedStep bs st (addFiles st files op bs).1
  | dequeue (st : SchedState) (b : Batch) (q : List Batch)
      (hp : st.isProcessing = true) (hq : st.queue = b :: q) :
      SchedStep bs st ⟨q, true⟩
  | finishLoop (st : SchedState) (hp : st.isProcessing = true)
      (hq : st.queue = []) :
      SchedStep bs st ⟨[], false⟩

/-! ### Concrete scenarios -/

/-- The module-level engine state at page load: all counters zero. -/
def initialStats : EngineStats :=
  { filesProcessed := 0, errors := 0, errorsCount := 0, errorLog := [],
    progress := ⟨0, 0, 0, 0⟩, active := 0, startTime := 0, endTime := 0,
    events := [] }

/-- An external world in which every delegated operation succeeds. -/
def extOk : Ext := fun _ _ => .ok ()

/-- Interchangeable valid PDF work items for concrete scenarios. -/
def testFiles (n : Nat) : List JsFile :=
  (List.range n).map fun i => ⟨"f.pdf", "application/pdf", 1000 + i⟩

/-- Scenario C of the spec: five items, the fourth of the wrong type for
the operation. -/
def scenarioCFiles : List JsFile :=
  [⟨"a.pdf", "application/pdf", 1000⟩,
   ⟨"b.pdf", "application/pdf", 1000⟩,
   ⟨"c.pdf", "application/pdf", 1000⟩,
   ⟨"d.zip", "application/zip", 1000⟩,
   ⟨"e.pdf", "application/pdf", 1000⟩]

/-- One work item that fails OCR validation. -/
def scenarioErrFiles : List JsFile := [⟨"x.zip", "application/zip", 10⟩]

/-! ### Claim theorems -/

/-- Claim C1, counterexample: in the spec's own 5-item scenario with one
validation failure (operation `ocr`, `batchSize = 10`, `K = 3`), a
complete drain ends with `processingStats.filesProcessed = 4`, not 5:
only the success branch of `processFileInBatch` increments
`filesProcessed`, so it does not count every item that reached an
outcome. -/
theorem c1_counterexample :
    Drain extOk 3 (mkBatches scenarioCFiles "ocr" 10)
        (resetRun 0 initialStats)
        (runDrain extOk 3 (mkBatches scenarioCFiles "ocr" 10)
          (resetRun 0 initialStats))
      ∧ (runDrain extOk 3 (mkBatches scenarioCFiles "ocr" 10)
          (resetRun 0 initialStats)).errors = 1
      ∧ (runDrain extOk 3 (mkBatches scenarioCFiles "ocr" 10)
          (resetRun 0 initialStats)).filesProcessed = 4
      ∧ ¬ (runDrain extOk 3 (mkBatches scenarioCFiles "ocr" 10)
          (resetRun 0 initialStats)).filesProcessed = 5 :=
  ⟨runDrain_drain extOk 3 (by norm_num) _ _, by decide, by decide, by decide⟩

/-- Claim C1, amended: once the queue fully drains,
`filesProcessed + errors` does equal the number of submitted items
(every item reaches exactly one outcome), but `filesProcessed` counts
only the successes — it moves in lockstep with the `onProgress`
firings, and failed items contribute to `errors` alone. -/
theorem c1_amended (ext : Ext) (K : Nat) (q : List Batch) (t0 : Nat)
    (s s' : EngineStats) (hK : 0 < K)
    (h : Drain ext K q (resetRun t0 s) s') :
    s'.filesProcessed + s'.errors = queueSize q
      ∧ s'.events.countP isProgressEvent
          = s.events.countP isProgressEvent + s'.filesProcessed := by
  obtain ⟨d1, -, -, -, -, d6, -⟩ := drain_facts ext K hK q h
  have e1 : (resetRun t0 s).filesProcessed = 0 := rfl
  have e2 : (resetRun t0 s).errors = 0 := rfl
  have e3 : (resetRun t0 s).events = s.events := rfl
  rw [e1, e2] at d1
  rw [e1, e3] at d6
  exact ⟨by omega, by omega⟩

/-- Witness for C1 (amended) at a concrete 2-item run. -/
theorem c1_amended_witness :
    (0 : Nat) < 3
      ∧ ((runDrain extOk 3 (mkBatches (testFiles 2) "merge" 10)
            (resetRun 0 initialStats)).filesProcessed
          + (runDrain extOk 3 (mkBatches (testFiles 2) "merge" 10)
            (resetRun 0 initialStats)).errors
          = queueSize (mkBatches (testFiles 2) "merge" 10)
        ∧ (runDrain extOk 3 (mkBatches (testFiles 2) "merge" 10)
            (resetRun 0 initialStats)).events.countP isProgressEvent
          = initialStats.events.countP isProgressEvent
            + (runDrain extOk 3 (mkBatches (testFiles 2) "merge" 10)
              (resetRun 0 initialStats)).filesProcessed) :=
  ⟨by norm_num,
   c1_amended extOk 3 (mkBatches (testFiles 2) "merge" 10) 0 initialStats _
     (by norm_num) (runDrain_drain extOk 3 (by norm_num) _ _)⟩

/-- Claim C2: a batch execution launches exactly `min(K, N)` lanes, and
when the batch completes, lane `l` has recorded outcomes for precisely
the ascending stripe `l, l+K, l+2K, …` of indices below `N` (the lane
advances by `K` after each outcome until its index leaves the batch). -/
theorem c2_lane_stripes (ext : Ext) (b : Batch) (K : Nat)
    (s : EngineStats) (st : BatchState) (hK : 0 < K)
    (hreach : BatchReach ext b K s st) (hdone : BatchDone b st) :
    st.lanes.length = min K b.files.length
      ∧ (∀ (l : Nat) (ln : Lane), st.lanes[l]? = some ln →
          ln.done = stripeFrom K b.files.length l)
      ∧ (∀ l : Nat, List.Chain' (· < ·) (stripeFrom K b.files.length l)) := by
  have h := batchDone_facts ext b K hK s hreach hdone
  have hinv := batchInv_reach ext b K hK s hreach
  exact ⟨hinv.lanes_length, h.2.1,
    fun l => stripeFrom_chain K b.files.length hK l⟩

/-- Scenario A batch: 7 items in one batch. -/
def batch7 : Batch :=
  { files := testFiles 7, op := "ocr", batchIndex := 0, totalBatches := 1 }

/-- Witness for C2 at the spec's scenario A (7 items, `K = 3`): the
stripes are `{0,3,6}`, `{1,4}`, `{2,5}`. -/
theorem c2_witness :
    ((0 : Nat) < 3
      ∧ ((runBatchSeq extOk batch7 3 initialStats).lanes.length
            = min 3 batch7.files.length
        ∧ (∀ (l : Nat) (ln : Lane),
            (runBatchSeq extOk batch7 3 initialStats).lanes[l]? = some ln →
            ln.done = stripeFrom 3 batch7.files.length l)
        ∧ (∀ l : Nat, List.Chain' (· < ·)
            (stripeFrom 3 batch7.files.length l))))
      ∧ stripeFrom 3 7 0 = [0, 3, 6]
      ∧ stripeFrom 3 7 1 = [1, 4]
      ∧ stripeFrom 3 7 2 = [2, 5] :=
  ⟨⟨by norm_num,
    c2_lane_stripes extOk batch7 3 initialStats
      (runBatchSeq extOk batch7 3 initialStats) (by norm_num)
      (runBatchSeq_reach extOk batch7 3 initialStats)
      (runBatchSeq_done extOk batch7 3 (by norm_num) initialStats)⟩,
   by decide, by decide, by decide⟩

/-- Claim C3: `addFiles` splits a submission into `⌈n/batchSize⌉` chunks
in order (all of size `batchSize` except possibly the last, none
empty), carried verbatim by the enqueued batches; the drain loop
executes each head batch to completion before dequeuing the next, so
every batch contributes one contiguous block to the event trace, in
queue order — batches never interleave. -/
theorem c3_fifo_batches (bs K : Nat) (files : List JsFile) (op : String)
    (ext : Ext) (q : List Batch) (s s' : EngineStats)
    (hbs : 0 < bs) (hK : 0 < K) (h : Drain ext K q s s') :
    (chunkFiles bs files).flatten = files
      ∧ (∀ c ∈ (chunkFiles bs files).dropLast, c.length = bs)
      ∧ (∀ c ∈ chunkFiles bs files, 0 < c.length ∧ c.length ≤ bs)
      ∧ (chunkFiles bs files).length = (files.length + bs - 1) / bs
      ∧ (mkBatches files op bs).map Batch.files = chunkFiles bs files
      ∧ queueSize (mkBatches files op bs) = files.length
      ∧ (∃ Es : List (List Event), s'.events = s.events ++ Es.flatten
          ∧ List.Forall₂ BatchBlock q Es) :=
  ⟨chunkFiles_flatten bs hbs files, chunkFiles_dropLast_length bs hbs files,
   chunkFiles_mem_length bs hbs files, chunkFiles_count bs hbs files,
   mkBatches_map_files files op bs, queueSize_mkBatches files op bs hbs,
   drain_events ext K hK q h⟩

/-- Witness for C3 at the spec's scenario B: 23 items split into chunks
of sizes 10, 10, 3 and drained in order. -/
theorem c3_witness :
    ((0 : Nat) < 10 ∧ (0 : Nat) < 3
      ∧ ((chunkFiles 10 (testFiles 23)).flatten = testFiles 23
        ∧ (∀ c ∈ (chunkFiles 10 (testFiles 23)).dropLast, c.length = 10)
        ∧ (∀ c ∈ chunkFiles 10 (testFiles 23), 0 < c.length ∧ c.length ≤ 10)
        ∧ (chunkFiles 10 (testFiles 23)).length = ((testFiles 23).length + 10 - 1) / 10
        ∧ (mkBatches (testFiles 23) "merge" 10).map Batch.files
            = chunkFiles 10 (testFiles 23)
        ∧ queueSize (mkBatches (testFiles 23) "merge" 10) = (testFiles 23).length
        ∧ (∃ Es : List (List Event),
            (runDrain extOk 3 (mkBatches (testFiles 23) "merge" 10)
              (resetRun 0 initialStats)).events
              = (resetRun 0 initialStats).events ++ Es.flatten
            ∧ List.Forall₂ BatchBlock (mkBatches (testFiles 23) "merge" 10) Es)))
      ∧ (chunkFiles 10 (testFiles 23)).map List.length = [10, 10, 3] :=
  ⟨⟨by norm_num, by norm_num,
    c3_fifo_batches 10 3 (testFiles 23) "merge" extOk
      (mkBatches (testFiles 23) "merge" 10) (resetRun 0 initialStats) _
      (by norm_num) (by norm_num) (runDrain_drain extOk 3 (by norm_num) _ _)⟩,
   by decide⟩

/-- Claim C4: an item failure is absorbed at the lane boundary — the
`catch` branch appends exactly one record to `errorNotifications`,
increments `processingStats.errors` and the lifetime counter
`errorsCount` by one, fires `onError` exactly once, and the lane merely
advances to its next stripe index (the step stays inside the lane: no
lane, batch, or queue is aborted).  Across any drain the error log and
`errorsCount` grow in lockstep with the failures, so the log length
equals the lifetime error counter whenever it did at the start, and the
number of `onError` firings equals the number of failures. -/
theorem c4_error_handling (ext : Ext) (b : Batch) (K : Nat)
    (st : BatchState) (l idx : Nat) (dn : List Nat) (f : JsFile)
    (m : String) (q : List Batch) (s s' : EngineStats) (hK : 0 < K)
    (hl : st.lanes[l]? = some ⟨idx, true, dn⟩)
    (hf : b.files[idx]? = some f)
    (hres : itemResult ext f b.op = .error m)
    (hdrain : Drain ext K q s s')
    (hinit : s.errorLog.length = s.errorsCount) :
    BatchStep ext b K st (finishState ext b K st l idx dn f)
      ∧ (finishState ext b K st l idx dn f).stats.errorLog
          = st.stats.errorLog ++ [ErrorRecord.mk f.name m]
      ∧ (finishState ext b K st l idx dn f).stats.errors
          = st.stats.errors + 1
      ∧ (finishState ext b K st l idx dn f).stats.errorsCount
          = st.stats.errorsCount + 1
      ∧ (finishState ext b K st l idx dn f).stats.events
          = st.stats.events
            ++ [Event.itemDone b.batchIndex idx f.name false,
                Event.errorFired f.name m]
      ∧ (finishState ext b K st l idx dn f).lanes
          = st.lanes.set l ⟨idx + K, false, dn ++ [idx]⟩
      ∧ s'.errorLog.length = s'.errorsCount
      ∧ s'.events.countP isErrorEvent + s.errors
          = s.events.countP isErrorEvent + s'.errors := by
  have hfin := finishState_error ext b K st l idx dn f m hres
  obtain ⟨-, -, d3, d4, d5, -⟩ := drain_facts ext K hK q hdrain
  refine ⟨BatchStep.finish st l idx dn f hl hf, ?_, ?_, ?_, ?_, ?_,
    by omega, d5⟩
  · rw [hfin]
    rfl
  · rw [hfin]
    rfl
  · rw [hfin]
    rfl
  · rw [hfin]
    rfl
  · rw [hfin]

/-- Witness for C4: a concrete failing step (scenario C's item 4 in
flight on lane 0) and the drain-level log/counter lockstep on the
concrete run. -/
theorem c4_witness :
    (0 : Nat) < 3
      ∧ itemResult extOk ⟨"d.zip", "application/zip", 1000⟩ "ocr"
          = .error "Unsupported file type for OCR."
      ∧ (runDrain extOk 3 (mkBatches scenarioCFiles "ocr" 10)
          (resetRun 0 initialStats)).errorLog.length
        = (runDrain extOk 3 (mkBatches scenarioCFiles "ocr" 10)
          (resetRun 0 initialStats)).errorsCount := by
  have h := c4_error_handling extOk
    { files := scenarioCFiles, op := "ocr", batchIndex := 0,
      totalBatches := 1 } 3
    ⟨[⟨3, true, []⟩], resetRun 0 initialStats⟩
    0 3 [] ⟨"d.zip", "application/zip", 1000⟩
    "Unsupported file type for OCR."
    (mkBatches scenarioCFiles "ocr" 10)
    (resetRun 0 initialStats)
    (runDrain extOk 3 (mkBatches scenarioCFiles "ocr" 10)
      (resetRun 0 initialStats))
    (by norm_num) (by decide) (by decide) (by decide)
    (runDrain_drain extOk 3 (by norm_num) _ _) (by decide)
  exact ⟨by norm_num, by decide, h.2.2.2.2.2.2.1⟩

/-- Claim C5, counterexample: an errored outcome produces no progress
update and no `onProgress` invocation.  In a 1-item run whose item
fails validation, one outcome is recorded but `progress.current` stays
0 and `onProgress` never fires — not one update per outcome. -/
theorem c5_counterexample :
    Drain extOk 3 (mkBatches scenarioErrFiles "ocr" 10)
        (resetRun 0 initialStats)
        (runDrain extOk 3 (mkBatches scenarioErrFiles "ocr" 10)
          (resetRun 0 initialStats))
      ∧ (runDrain extOk 3 (mkBatches scenarioErrFiles "ocr" 10)
          (resetRun 0 initialStats)).events.countP isOutcomeEvent = 1
      ∧ (runDrain extOk 3 (mkBatches scenarioErrFiles "ocr" 10)
          (resetRun 0 initialStats)).events.countP isProgressEvent = 0
      ∧ (runDrain extOk 3 (mkBatches scenarioErrFiles "ocr" 10)
          (resetRun 0 initialStats)).progress.current = 0 :=
  ⟨runDrain_drain extOk 3 (by norm_num) _ _, by decide, by decide, by decide⟩

/-- Claim C5, amended: the progress record is updated and `onProgress`
fires (synchronously, with the just-updated record) exactly once per
successful outcome; an errored outcome updates no progress field and
fires no `onProgress`.  Over any drain the number of `onProgress`
firings equals the number of successes. -/
theorem c5_amended (ext : Ext) (b : Batch) (K : Nat) (st : BatchState)
    (l idx : Nat) (dn : List Nat) (f : JsFile) (hK : 0 < K) :
    (∀ u : Unit, itemResult ext f b.op = .ok u →
        (finishState ext b K st l idx dn f).stats.events
            = st.stats.events
              ++ [Event.itemDone b.batchIndex idx f.name true,
                  Event.progressFired { st.stats.progress with
                    current := st.stats.progress.current + 1,
                    batch := st.stats.progress.batch + 1 }]
          ∧ (finishState ext b K st l idx dn f).stats.progress.current
              = st.stats.progress.current + 1
          ∧ (finishState ext b K st l idx dn f).stats.progress.batch
              = st.stats.progress.batch + 1
          ∧ (finishState ext b K st l idx dn f).stats.filesProcessed
              = st.stats.filesProcessed + 1)
      ∧ (∀ m : String, itemResult ext f b.op = .error m →
          (finishState ext b K st l idx dn f).stats.events.countP
              isProgressEvent
            = st.stats.events.countP isProgressEvent
          ∧ (finishState ext b K st l idx dn f).stats.progress
              = st.stats.progress)
      ∧ (∀ (q : List Batch) (s s' : EngineStats), Drain ext K q s s' →
          s'.events.countP isProgressEvent + s.filesProcessed
            = s.events.countP isProgressEvent + s'.filesProcessed) := by
  refine ⟨?_, ?_, ?_⟩
  · intro u hres
    have hfin := finishState_ok ext b K st l idx dn f u hres
    exact ⟨by rw [hfin]; rfl, by rw [hfin]; rfl, by rw [hfin]; rfl,
      by rw [hfin]; rfl⟩
  · intro m hres
    have hfin := finishState_error ext b K st l idx dn f m hres
    constructor
    · rw [hfin]
      show (st.stats.events
          ++ [Event.itemDone b.batchIndex idx f.name false,
              Event.errorFired f.name m]).countP isProgressEvent = _
      rw [countP_two]
      simp [isProgressEvent]
    · rw [hfin]
      rfl
  · intro q s s' h
    exact (drain_facts ext K hK q h).2.2.2.2.2.1

/-- Witness for C5 (amended) at a concrete lane state. -/
theorem c5_amended_witness :
    (0 : Nat) < 3
      ∧ ((∀ u : Unit,
          itemResult extOk ⟨"a.pdf", "application/pdf", 1000⟩ batch7.op
            = .ok u →
          (finishState extOk batch7 3 (initBatchState batch7 3 initialStats)
              0 0 [] ⟨"a.pdf", "application/pdf", 1000⟩).stats.events
              = (initBatchState batch7 3 initialStats).stats.events
                ++ [Event.itemDone batch7.batchIndex 0 "a.pdf" true,
                    Event.progressFired
                      { (initBatchState batch7 3 initialStats).stats.progress with
                        current := (initBatchState batch7 3
                          initialStats).stats.progress.current + 1,
                        batch := (initBatchState batch7 3
                          initialStats).stats.progress.batch + 1 }]
            ∧ (finishState extOk batch7 3 (initBatchState batch7 3 initialStats)
                0 0 [] ⟨"a.pdf", "application/pdf", 1000⟩).stats.progress.current
                = (initBatchState batch7 3 initialStats).stats.progress.current + 1
            ∧ (finishState extOk batch7 3 (initBatchState batch7 3 initialStats)
                0 0 [] ⟨"a.pdf", "application/pdf", 1000⟩).stats.progress.batch
                = (initBatchState batch7 3 initialStats).stats.progress.batch + 1
            ∧ (finishState extOk batch7 3 (initBatchState batch7 3 initialStats)
                0 0 [] ⟨"a.pdf", "application/pdf", 1000⟩).stats.filesProcessed
                = (initBatchState batch7 3 initialStats).stats.filesProcessed + 1)
        ∧ (∀ m : String,
            itemResult extOk ⟨"a.pdf", "application/pdf", 1000⟩ batch7.op
              = .error m →
            (finishState extOk batch7 3 (initBatchState batch7 3 initialStats)
                0 0 [] ⟨"a.pdf", "application/pdf", 1000⟩).stats.events.countP
                isProgressEvent
              = (initBatchState batch7 3 initialStats).stats.events.countP
                isProgressEvent
            ∧ (finishState extOk batch7 3 (initBatchState batch7 3 initialStats)
                0 0 [] ⟨"a.pdf", "application/pdf", 1000⟩).stats.progress
                = (initBatchState batch7 3 initialStats).stats.progress)
        ∧ (∀ (q : List Batch) (s s' : EngineStats), Drain extOk 3 q s s' →
            s'.events.countP isProgressEvent + s.filesProcessed
              = s.events.countP isProgressEvent + s'.filesProcessed)) :=
  ⟨by norm_num,
   c5_amended extOk batch7 3 (initBatchState batch7 3 initialStats)
     0 0 [] ⟨"a.pdf", "application/pdf", 1000⟩ (by norm_num)⟩

/-- Claim C6, amended: when the queue empties the scheduler records
`endTime` and fires `onComplete` exactly once, carrying the final
counters; the success rate the code computes is
`(filesProcessed - errors) / filesProcessed * 100` where
`filesProcessed` counts successes only — positive-success runs get the
finite value, while the degenerate all-failed run divides by zero and
produces `-Infinity`, not 0%. -/
theorem c6_amended (ext : Ext) (K : Nat) (q : List Batch) (t0 t1 : Nat)
    (s s' : EngineStats) (hK : 0 < K)
    (h : RunToCompletion ext K q t0 t1 s s') :
    s'.endTime = t1
      ∧ s'.startTime = t0
      ∧ s'.events.countP isCompleteEvent
          = s.events.countP isCompleteEvent + 1
      ∧ (∃ smid : EngineStats, Drain ext K q (resetRun t0 s) smid
          ∧ s'.events = smid.events
              ++ [Event.completeFired s'.filesProcessed s'.errors])
      ∧ s'.filesProcessed + s'.errors = queueSize q
      ∧ (0 < s'.filesProcessed →
          successRateJS s'.filesProcessed s'.errors
            = .num ((((s'.filesProcessed : ℚ) - (s'.errors : ℚ))
                / (s'.filesProcessed : ℚ)) * 100))
      ∧ (s'.filesProcessed = 0 → 0 < s'.errors →
          successRateJS s'.filesProcessed s'.errors = .negInf) := by
  obtain ⟨smid, hdrain, rfl⟩ := h
  obtain ⟨d1, d2, d3, d4, d5, d6, d7, d8, d9, d10, d11, d12, d13⟩ :=
    drain_facts ext K hK q hdrain
  have e1 : (resetRun t0 s).filesProcessed = 0 := rfl
  have e2 : (resetRun t0 s).errors = 0 := rfl
  have e3 : (resetRun t0 s).events = s.events := rfl
  have e4 : (resetRun t0 s).startTime = t0 := rfl
  refine ⟨rfl, by rw [← e4, ← d9], ?_, ⟨smid, hdrain, rfl⟩, ?_, ?_, ?_⟩
  · show (smid.events
        ++ [Event.completeFired smid.filesProcessed smid.errors]).countP
        isCompleteEvent = _
    rw [List.countP_append]
    have hc1 : ([Event.completeFired smid.filesProcessed
        smid.errors]).countP isCompleteEvent = 1 := rfl
    rw [hc1, d13, e3]
  · show smid.filesProcessed + smid.errors = queueSize q
    omega
  · intro hp
    have hp2 : 0 < smid.filesProcessed := hp
    have hne : ¬ smid.filesProcessed = 0 := by omega
    show successRateJS smid.filesProcessed smid.errors
        = JSNum.num (((smid.filesProcessed : ℚ) - (smid.errors : ℚ))
            / (smid.filesProcessed : ℚ) * 100)
    simp only [successRateJS, if_neg hne]
  · intro h0 hpos
    have h0' : smid.filesProcessed = 0 := h0
    have hpos' : 0 < smid.errors := hpos
    have hne : ¬ smid.errors = 0 := by omega
    show successRateJS smid.filesProcessed smid.errors = JSNum.negInf
    simp only [successRateJS, if_pos h0', if_neg hne]

/-- Claim C6, counterexample: in a completed run where the only item
failed, the summary has `filesProcessed = 0`, `errors = 1`, and the
computed success rate is `-Infinity` (JS division by zero), not the 0%
the claim asserts for the degenerate all-failed run. -/
theorem c6_counterexample :
    RunToCompletion extOk 3 (mkBatches scenarioErrFiles "ocr" 10) 0 5
        initialStats
        (runAll extOk 3 (mkBatches scenarioErrFiles "ocr" 10) 0 5
          initialStats)
      ∧ (runAll extOk 3 (mkBatches scenarioErrFiles "ocr" 10) 0 5
          initialStats).filesProcessed = 0
      ∧ (runAll extOk 3 (mkBatches scenarioErrFiles "ocr" 10) 0 5
          initialStats).errors = 1
      ∧ successRateJS 0 1 = JSNum.negInf
      ∧ JSNum.negInf ≠ JSNum.num 0 :=
  ⟨runAll_complete extOk 3 (by norm_num) _ 0 5 initialStats,
   by decide, by decide, by decide, by decide⟩

/-- An arbitrary oversized non-PDF item. -/
def badFile : JsFile :=
  ⟨"payload.bin", "application/octet-stream", 900 * 1024 * 1024⟩

/-- A valid-type PDF above the merge size ceiling. -/
def bigPdf : JsFile := ⟨"big.pdf", "application/pdf", 200 * 1024 * 1024⟩

/-- Claim C7, counterexample: the `convert` handler validates nothing —
an oversized item of disallowed type goes straight to the transform —
and the `compress` handler has no size ceiling: a 200MB PDF passes its
gate and all external calls are made. -/
theorem c7_counterexample :
    executeOperation extOk badFile "convert"
        = ([ExtCall.runTransform "convert"], .ok ())
      ∧ validateFile badFile pdfOnly = false
      ∧ sizeLimit < badFile.size
      ∧ validationGate badFile "convert" = none
      ∧ executeOperation extOk bigPdf "compress"
          = ([ExtCall.readPayload, ExtCall.loadPdf,
              ExtCall.runTransform "compress"], .ok ())
      ∧ sizeLimit < bigPdf.size :=
  ⟨by decide, by decide, by decide, by decide, by decide, by decide⟩

/-- Claim C7, amended: `merge`, `compress` and `ocr` validate first and,
on gate failure, throw without making any external call; only `merge`
enforces the 100MB size ceiling (`compress` and `ocr` gate on type
alone), and `convert` performs no validation at all, always invoking
its transform. -/
theorem c7_amended (ext : Ext) (f : JsFile) (m : String) :
    ((validationGate f "merge" = some m →
        executeOperation ext f "merge" = ([], .error m))
      ∧ (validationGate f "compress" = some m →
        executeOperation ext f "compress" = ([], .error m))
      ∧ (validationGate f "ocr" = some m →
        executeOperation ext f "ocr" = ([], .error m)))
      ∧ (validationGate f "merge" = none ↔
          (validateFile f pdfOnly = true ∧ f.size ≤ sizeLimit))
      ∧ (validationGate f "compress" = none ↔ validateFile f pdfOnly = true)
      ∧ (validationGate f "ocr" = none ↔ validateFile f ocrTypes = true)
      ∧ validationGate f "convert" = none
      ∧ (executeOperation ext f "convert").1
          = [ExtCall.runTransform "convert"] := by
  by_cases hv : validateFile f pdfOnly
  · by_cases hs : sizeLimit < f.size
    · refine ⟨⟨?_, ?_, ?_⟩, ?_, ?_, ?_, rfl, rfl⟩
      · intro hg
        simp [validationGate, hv, hs] at hg
        simp [executeOperation, mergeFile, hv, hs, hg]
      · intro hg
        simp [validationGate, hv] at hg
      · intro hg
        by_cases ho : validateFile f ocrTypes
        · simp [validationGate, ho] at hg
        · simp [validationGate, ho] at hg
          simp [executeOperation, ocrFile, ho, hg]
      · simp [validationGate, hv, hs]
      · simp [validationGate, hv]
      · by_cases ho : validateFile f ocrTypes <;>
          simp [validationGate, ho]
    · refine ⟨⟨?_, ?_, ?_⟩, ?_, ?_, ?_, rfl, rfl⟩
      · intro hg
        simp [validationGate, hv, hs] at hg
      · intro hg
        simp [validationGate, hv] at hg
      · intro hg
        by_cases ho : validateFile f ocrTypes
        · simp [validationGate, ho] at hg
        · simp [validationGate, ho] at hg
          simp [executeOperation, ocrFile, ho, hg]
      · simp [validationGate, hv, hs]
        omega
      · simp [validationGate, hv]
      · by_cases ho : validateFile f ocrTypes <;>
          simp [validationGate, ho]
  · refine ⟨⟨?_, ?_, ?_⟩, ?_, ?_, ?_, rfl, rfl⟩
    · intro hg
      simp [validationGate, hv] at hg
      simp [executeOperation, mergeFile, hv, hg]
    · intro hg
      simp [validationGate, hv] at hg
      simp [executeOperation, compressFile, hv, hg]
    · intro hg
      by_cases ho : validateFile f ocrTypes
      · simp [validationGate, ho] at hg
      · simp [validationGate, ho] at hg
        simp [executeOperation, ocrFile, ho, hg]
    · simp [validationGate, hv]
    · simp [validationGate, hv]
    · by_cases ho : validateFile f ocrTypes <;>
        simp [validationGate, ho]

/-- Witness for C7 (amended): a plain-text item is rejected by the merge
gate with no external call. -/
theorem c7_amended_witness :
    validationGate ⟨"notes.txt", "text/plain", 10⟩ "merge"
        = some "Invalid file type. Only PDF files are supported for merging."
      ∧ executeOperation extOk ⟨"notes.txt", "text/plain", 10⟩ "merge"
        = ([], .error
            "Invalid file type. Only PDF files are supported for merging.") :=
  ⟨by decide,
   (c7_amended extOk ⟨"notes.txt", "text/plain", 10⟩
      "Invalid file type. Only PDF files are supported for merging.").1.1
     (by decide)⟩

/-- Witness for C6 (amended) at a concrete completed run. -/
theorem c6_amended_witness :
    (0 : Nat) < 3
      ∧ (runAll extOk 3 (mkBatches scenarioErrFiles "ocr" 10) 0 5
          initialStats).endTime = 5
      ∧ (runAll extOk 3 (mkBatches scenarioErrFiles "ocr" 10) 0 5
          initialStats).startTime = 0
      ∧ (runAll extOk 3 (mkBatches scenarioErrFiles "ocr" 10) 0 5
          initialStats).events.countP isCompleteEvent
        = initialStats.events.countP isCompleteEvent + 1 :=
  ⟨by norm_num,
   (c6_amended extOk 3 (mkBatches scenarioErrFiles "ocr" 10) 0 5
      initialStats _ (by norm_num)
      (runAll_complete extOk 3 (by norm_num) _ 0 5 initialStats)).1,
   (c6_amended extOk 3 (mkBatches scenarioErrFiles "ocr" 10) 0 5
      initialStats _ (by norm_num)
      (runAll_complete extOk 3 (by norm_num) _ 0 5 initialStats)).2.1,
   (c6_amended extOk 3 (mkBatches scenarioErrFiles "ocr" 10) 0 5
      initialStats _ (by norm_num)
      (runAll_complete extOk 3 (by norm_num) _ 0 5 initialStats)).2.2.1⟩

/-- Claim C8: the scheduler flag machine admits exactly the claimed
transitions.  From Idle, only a submission that leaves the queue
nonempty moves to Draining; while Draining a submission only appends
batches (no second loop starts); Draining returns to Idle exactly when
the loop observes an empty queue; and from any Idle state a later
nonempty submission starts Draining again — there is no terminal
state. -/
theorem c8_state_machine (bs : Nat) (st st' : SchedState)
    (q : List Batch) (files : List JsFile) (op : String)
    (hbs : 0 < bs) (hne : files ≠ [])
    (hstep : SchedStep bs st st') :
    (st.isProcessing = false → st'.isProcessing = true →
        ∃ (fs : List JsFile) (o : String),
          st' = (addFiles st fs o bs).1
            ∧ st.queue ++ mkBatches fs o bs ≠ [])
      ∧ (st.isProcessing = true → ∀ (fs : List JsFile) (o : String),
          (addFiles st fs o bs).1 = ⟨st.queue ++ mkBatches fs o bs, true⟩)
      ∧ (st.isProcessing = true → st'.isProcessing = false →
          st.queue = [] ∧ st' = ⟨[], false⟩)
      ∧ ((addFiles ⟨q, false⟩ files op bs).1).isProcessing = true := by
  have hmk := mkBatches_ne_nil files op bs hbs hne
  refine ⟨?_, ?_, ?_, ?_⟩
  · intro hidle hrun
    cases hstep with
    | submit files2 op2 =>
      refine ⟨files2, op2, rfl, ?_⟩
      intro hcon
      simp only [addFiles, hidle] at hrun
      simp [hcon] at hrun
    | dequeue b2 q2 hp hq2 =>
      rw [hp] at hidle
      cases hidle
    | finishLoop hp hq2 =>
      rw [hp] at hidle
      cases hidle
  · intro hp fs o
    simp [addFiles, hp]
  · intro hp hflag
    cases hstep with
    | submit files2 op2 =>
      simp only [addFiles, hp] at hflag
      simp at hflag
    | dequeue b2 q2 hp2 hq2 =>
      simp at hflag
    | finishLoop hp2 hq2 =>
      exact ⟨hq2, rfl⟩
  · have h2 : q ++ mkBatches files op bs ≠ [] := by
      intro hcon
      rcases List.append_eq_nil.mp hcon with ⟨-, hnil⟩
      exact hmk hnil
    simp [addFiles, h2]

/-- Witness for C8 at a concrete submission to an idle scheduler. -/
theorem c8_witness :
    (0 : Nat) < 10
      ∧ testFiles 1 ≠ []
      ∧ ((⟨[], false⟩ : SchedState).isProcessing = false →
          ((addFiles ⟨[], false⟩ (testFiles 1) "ocr" 10).1).isProcessing
            = true →
          ∃ (fs : List JsFile) (o : String),
            (addFiles ⟨[], false⟩ (testFiles 1) "ocr" 10).1
                = (addFiles ⟨[], false⟩ fs o 10).1
              ∧ (⟨[], false⟩ : SchedState).queue ++ mkBatches fs o 10 ≠ []) :=
  ⟨by norm_num, by decide,
   (c8_state_machine 10 ⟨[], false⟩
      (addFiles ⟨[], false⟩ (testFiles 1) "ocr" 10).1 []
      (testFiles 1) "ocr" (by norm_num) (by decide)
      (SchedStep.submit ⟨[], false⟩ (testFiles 1) "ocr")).1⟩

/-- Claim C9: in every reachable state of a batch execution started with
`activeOperations = 0`, the number of in-flight operations never
exceeds the concurrency limit `K` (indeed never exceeds the number of
launched lanes, `min K N`), and it returns to 0 when the batch
completes. -/
theorem c9_concurrency_bound (ext : Ext) (b : Batch) (K : Nat)
    (s : EngineStats) (st : BatchState) (hK : 0 < K)
    (hact : s.active = 0) (hreach : BatchReach ext b K s st) :
    st.stats.active ≤ K
      ∧ st.stats.active ≤ min K b.files.length
      ∧ (BatchDone b st → st.stats.active = 0) := by
  have hinv := batchInv_reach ext b K hK s hreach
  have h1 := hinv.active_eq
  have h2 : st.lanes.countP (fun ln => ln.inFlight) ≤ st.lanes.length :=
    List.countP_le_length _
  have h3 := hinv.lanes_length
  refine ⟨by omega, by omega, ?_⟩
  intro hdone
  have h4 := (batchDone_facts ext b K hK s hreach hdone).1
  omega

/-- Witness for C9 at the completed scenario-A batch. -/
theorem c9_witness :
    (0 : Nat) < 3
      ∧ initialStats.active = 0
      ∧ ((runBatchSeq extOk batch7 3 initialStats).stats.active ≤ 3
        ∧ (runBatchSeq extOk batch7 3 initialStats).stats.active
            ≤ min 3 batch7.files.length
        ∧ (BatchDone batch7 (runBatchSeq extOk batch7 3 initialStats) →
            (runBatchSeq extOk batch7 3 initialStats).stats.active = 0)) :=
  ⟨by norm_num, rfl,
   c9_concurrency_bound extOk batch7 3 initialStats
     (runBatchSeq extOk batch7 3 initialStats) (by norm_num) rfl
     (runBatchSeq_reach extOk batch7 3 initialStats)⟩

/-- Claim C10: calling `addFiles` with a nonempty list on an idle
scheduler starts the drain loop synchronously inside the call; the loop
dequeues the first batch before `addFiles` reads `this.queue.length`,
so the returned queue position excludes the caller's own first batch —
in particular a submission that fits in one batch returns 0. -/
theorem c10_sync_start (st : SchedState) (files : List JsFile)
    (op : String) (bs : Nat) (hbs : 0 < bs)
    (hidle : st.isProcessing = false) (hq : st.queue = [])
    (hne : files ≠ []) :
    (addFiles st files op bs).1.isProcessing = true
      ∧ (addFiles st files op bs).1.queue = (mkBatches files op bs).tail
      ∧ (addFiles st files op bs).2 = (mkBatches files op bs).length - 1
      ∧ (files.length ≤ bs → (addFiles st files op bs).2 = 0) := by
  have hmk := mkBatches_ne_nil files op bs hbs hne
  have hq2 : st.queue ++ mkBatches files op bs = mkBatches files op bs := by
    rw [hq, List.nil_append]
  have hlen1 : files.length ≤ bs → (mkBatches files op bs).length = 1 := by
    intro hle
    rw [mkBatches_length, chunkFiles_count bs hbs files]
    have h0 : 0 < files.length := List.length_pos.mpr hne
    have heq : files.length + bs - 1 = (files.length - 1) + bs := by omega
    rw [heq, Nat.add_div_right _ hbs,
      Nat.div_eq_of_lt (by omega : files.length - 1 < bs)]
  simp only [addFiles, hidle, hq2]
  rw [if_neg (by simp), if_neg hmk]
  refine ⟨rfl, rfl, List.length_tail _, ?_⟩
  intro hle
  rw [List.length_tail, hlen1 hle]

/-- Witness for C10: two items submitted to an idle scheduler with
`batchSize = 10` return queue position 0. -/
theorem c10_witness :
    (0 : Nat) < 10
      ∧ (⟨[], false⟩ : SchedState).isProcessing = false
      ∧ (⟨[], false⟩ : SchedState).queue = []
      ∧ testFiles 2 ≠ []
      ∧ ((addFiles ⟨[], false⟩ (testFiles 2) "merge" 10).1.isProcessing = true
        ∧ (addFiles ⟨[], false⟩ (testFiles 2) "merge" 10).1.queue
            = (mkBatches (testFiles 2) "merge" 10).tail
        ∧ (addFiles ⟨[], false⟩ (testFiles 2) "merge" 10).2
            = (mkBatches (testFiles 2) "merge" 10).length - 1
        ∧ ((testFiles 2).length ≤ 10 →
            (addFiles ⟨[], false⟩ (testFiles 2) "merge" 10).2 = 0)) :=
  ⟨by norm_num, rfl, rfl, by decide,
   c10_sync_start ⟨[], false⟩ (testFiles 2) "merge" 10 (by norm_num) rfl rfl
     (by decide)⟩

end PDFToolkit
